import Mathlib

/-!
Verification of the PG1003/golomb exponential-Golomb codec.

The definitions below are a shallow embedding of `src/golomb.h` and of the
adaptive-order driver in `util/golomb.cpp`:
* machine unsigned integers of width `n` are modelled as `Nat` with explicit
  `% 2^n` wherever the C++ performs a narrowing cast or an overflowing
  operation;
* the C++ `while` loops are modelled as structurally recursive functions on an
  explicit iteration budget (`fuel`); the budgets supplied by the wrappers are
  proven sufficient by the lemmas below, so the embedded functions agree with
  the loops of the source;
* output iterators are modelled as the list of values written so far
  (`detail::write` appends one chunk), input iterators as the list of values
  not yet read (`detail::read` pops one chunk).  `detail::fix_endian`
  reorders the bytes inside one chunk when it is serialised; on the level of
  chunk values used here it is the identity.
-/

namespace Golomb

/-- MSB-first list of the low `n` bits of `x` (bit `n-1` first, bit `0` last). -/
def bitsOfNat : Nat → Nat → List Bool
  | 0, _ => []
  | n + 1, x => x.testBit n :: bitsOfNat n x

/-- Value of an MSB-first bit list. -/
def natOfBits (l : List Bool) : Nat :=
  l.foldl (fun a b => 2 * a + b.toNat) 0

/-- Fuel-driven helper for `bit_width`; `fuel ≥ n` makes it exact. -/
def bitWidthAux : Nat → Nat → Nat
  | 0, _ => 0
  | fuel + 1, n => if n = 0 then 0 else bitWidthAux fuel (n / 2) + 1

/-- `std::bit_width`: position of the highest set bit, counting from 1. -/
def bit_width (n : Nat) : Nat := bitWidthAux n n

theorem bitWidthAux_le_iff :
    ∀ fuel n b : Nat, n ≤ fuel → (bitWidthAux fuel n ≤ b ↔ n < 2 ^ b) := by
  intro fuel
  induction fuel with
  | zero =>
    intro n b hn
    interval_cases n
    simp [bitWidthAux]
  | succ fuel ih =>
    intro n b hn
    by_cases h0 : n = 0
    · subst h0
      simp [bitWidthAux]
    · rw [bitWidthAux, if_neg h0]
      cases b with
      | zero =>
        simp only [pow_zero, Nat.lt_one_iff]
        omega
      | succ b =>
        have hdiv : n / 2 ≤ fuel := by omega
        rw [Nat.succ_le_succ_iff, ih (n / 2) b hdiv, pow_succ]
        rw [Nat.div_lt_iff_lt_mul (by norm_num : 0 < 2)]

theorem bit_width_le_iff {n b : Nat} : bit_width n ≤ b ↔ n < 2 ^ b :=
  bitWidthAux_le_iff n n b le_rfl

theorem lt_bit_width_iff {n b : Nat} : b < bit_width n ↔ 2 ^ b ≤ n := by
  have h := bit_width_le_iff (n := n) (b := b)
  constructor
  · intro hb
    by_contra hc
    exact absurd (h.mpr (by omega)) (by omega)
  · intro hb
    by_contra hc
    exact absurd (h.mp (by omega)) (by omega)

theorem lt_two_pow_bit_width (n : Nat) : n < 2 ^ bit_width n :=
  bit_width_le_iff.mp le_rfl

theorem two_pow_bit_width_pred_le {n : Nat} (h : n ≠ 0) :
    2 ^ (bit_width n - 1) ≤ n := by
  have h1 : 0 < bit_width n := by
    have := bit_width_le_iff (n := n) (b := 0)
    simp only [pow_zero, Nat.lt_one_iff] at this
    omega
  exact lt_bit_width_iff.mp (by omega)

@[simp] theorem bitsOfNat_length (n x : Nat) : (bitsOfNat n x).length = n := by
  induction n generalizing x with
  | zero => rfl
  | succ n ih => simp [bitsOfNat, ih]

@[simp] theorem bitsOfNat_zero_val (n : Nat) :
    bitsOfNat n 0 = List.replicate n false := by
  induction n with
  | zero => rfl
  | succ n ih => simp [bitsOfNat, ih, List.replicate_succ]

theorem bitsOfNat_add (a b x : Nat) :
    bitsOfNat (a + b) x = bitsOfNat a (x >>> b) ++ bitsOfNat b x := by
  induction a generalizing x with
  | zero => simp [bitsOfNat]
  | succ a ih =>
    have h : a + 1 + b = (a + b) + 1 := by omega
    rw [h, bitsOfNat, bitsOfNat, ih, Nat.testBit_shiftRight]
    have h2 : b + a = a + b := by omega
    simp [h2]

theorem bitsOfNat_mod {n m : Nat} (x : Nat) (h : n ≤ m) :
    bitsOfNat n (x % 2 ^ m) = bitsOfNat n x := by
  induction n with
  | zero => rfl
  | succ n ih =>
    rw [bitsOfNat, bitsOfNat, ih (by omega), Nat.testBit_mod_two_pow]
    simp [show n < m by omega]

theorem bitsOfNat_of_lt {n m x : Nat} (hx : x < 2 ^ m) (h : m ≤ n) :
    bitsOfNat n x = List.replicate (n - m) false ++ bitsOfNat m x := by
  have h2 : x >>> m = 0 := by
    rw [Nat.shiftRight_eq_div_pow]
    exact Nat.div_eq_of_lt hx
  have h3 := bitsOfNat_add (n - m) m x
  rw [h2, bitsOfNat_zero_val] at h3
  rw [show n = (n - m) + m by omega]
  simpa using h3

theorem testBit_top {n x : Nat} (h1 : 2 ^ n ≤ x) (h2 : x < 2 ^ (n + 1)) :
    x.testBit n = true := by
  have hp : 0 < 2 ^ n := Nat.pos_pow_of_pos n (by norm_num)
  have h3 : x / 2 ^ n = 1 := by
    have a1 : 1 ≤ x / 2 ^ n := (Nat.le_div_iff_mul_le hp).mpr (by omega)
    have a2 : x / 2 ^ n < 2 := by
      rw [Nat.div_lt_iff_lt_mul hp]
      rw [pow_succ] at h2
      omega
    omega
  rw [Nat.testBit_to_div_mod, h3]
  rfl

theorem bitsOfNat_top {n x : Nat} (h1 : 2 ^ n ≤ x) (h2 : x < 2 ^ (n + 1)) :
    bitsOfNat (n + 1) x = true :: bitsOfNat n x := by
  rw [bitsOfNat, testBit_top h1 h2]

theorem natOfBits_go (l : List Bool) (a : Nat) :
    l.foldl (fun a b => 2 * a + b.toNat) a = a * 2 ^ l.length + natOfBits l := by
  induction l generalizing a with
  | nil => simp [natOfBits]
  | cons b l ih =>
    rw [natOfBits, List.foldl_cons, List.foldl_cons, ih, ih (2 * 0 + b.toNat)]
    simp [List.length_cons, pow_succ]
    ring

theorem natOfBits_cons (b : Bool) (l : List Bool) :
    natOfBits (b :: l) = b.toNat * 2 ^ l.length + natOfBits l := by
  rw [natOfBits, List.foldl_cons, natOfBits_go]
  simp [natOfBits]

theorem natOfBits_append (l1 l2 : List Bool) :
    natOfBits (l1 ++ l2) = natOfBits l1 * 2 ^ l2.length + natOfBits l2 := by
  rw [natOfBits, List.foldl_append, natOfBits_go]
  rfl

theorem natOfBits_lt (l : List Bool) : natOfBits l < 2 ^ l.length := by
  induction l with
  | nil => simp [natOfBits]
  | cons b l ih =>
    rw [natOfBits_cons]
    have : b.toNat ≤ 1 := Bool.toNat_le b
    have h2 : (b :: l).length = l.length + 1 := by simp
    rw [h2, pow_succ]
    nlinarith

theorem natOfBits_bitsOfNat (n x : Nat) : natOfBits (bitsOfNat n x) = x % 2 ^ n := by
  induction n generalizing x with
  | zero => simp [bitsOfNat, natOfBits, Nat.mod_one]
  | succ n ih =>
    rw [bitsOfNat, natOfBits_cons, ih, bitsOfNat_length]
    rw [Nat.testBit_to_div_mod]
    have hd : x % 2 ^ (n + 1) = x / 2 ^ n % 2 * 2 ^ n + x % 2 ^ n := by
      rw [pow_succ, Nat.mod_mul]
      ring
    rcases Nat.mod_two_eq_zero_or_one (x / 2 ^ n) with h | h <;>
      simp [h, hd]

theorem or_eq_add_of_disjoint {n a b : Nat} (ha : a % 2 ^ n = 0) (hb : b < 2 ^ n) :
    a ||| b = a + b := by
  have hp : 0 < 2 ^ n := Nat.pos_pow_of_pos n (by norm_num)
  have hq : a = 2 ^ n * (a / 2 ^ n) + 0 := by
    have := Nat.div_add_mod a (2 ^ n)
    omega
  apply Nat.eq_of_testBit_eq
  intro i
  rw [Nat.testBit_or]
  have h1 : (a + b).testBit i =
      if i < n then b.testBit i else (a / 2 ^ n).testBit (i - n) := by
    conv_lhs => rw [show a + b = 2 ^ n * (a / 2 ^ n) + b by omega]
    exact Nat.testBit_mul_pow_two_add (a / 2 ^ n) hb i
  have h2 : a.testBit i =
      if i < n then false else (a / 2 ^ n).testBit (i - n) := by
    conv_lhs => rw [hq]
    rw [Nat.testBit_mul_pow_two_add (a / 2 ^ n) hp i]
    simp
  by_cases hi : i < n
  · rw [h1, h2, if_pos hi, if_pos hi]
    simp
  · rw [h1, h2, if_neg hi, if_neg hi]
    have hbf : b.testBit i = false :=
      Nat.testBit_lt_two_pow
        (lt_of_lt_of_le hb (Nat.pow_le_pow_right (by norm_num) (by omega)))
    simp [hbf]

theorem and_xor_mask {W s f x : Nat} (hx : x < 2 ^ (s + f)) (hW : s + f ≤ W) :
    x &&& ((2 ^ W - 1) ^^^ ((2 ^ f - 1) <<< s)) = x % 2 ^ s := by
  apply Nat.eq_of_testBit_eq
  intro i
  rw [Nat.testBit_and, Nat.testBit_xor, Nat.testBit_shiftLeft,
    Nat.testBit_two_pow_sub_one, Nat.testBit_two_pow_sub_one,
    Nat.testBit_mod_two_pow]
  by_cases h1 : i < s
  · simp [h1, show i < W by omega, show ¬s ≤ i by omega]
  · by_cases h2 : i < s + f
    · simp [h1, h2, show i < W by omega, show s ≤ i by omega,
        show i - s < f by omega]
    · have hf : x.testBit i = false :=
        Nat.testBit_lt_two_pow
          (lt_of_lt_of_le hx (Nat.pow_le_pow_right (by norm_num) (by omega)))
      simp [hf, h1]

/-- `to_unsigned(SignedT s)` (golomb.h:116): the ZigZag map.  A signed `W`-bit
value is an `Int` in `[-2^(W-1), 2^(W-1))`; for `s < 0` the source computes
`(~s << 1) + 1` and casts to the unsigned type, otherwise `s << 1`; both
casts reduce mod `2^W`.  (`~s = -s - 1`.) -/
def to_unsigned (W : Nat) (s : Int) : Nat :=
  if s < 0 then (((-s - 1) * 2 + 1) % ((2 ^ W : Nat) : Int)).toNat
  else ((s * 2) % ((2 ^ W : Nat) : Int)).toNat

/-- Reading an unsigned `W`-bit value as the signed two's-complement type
(the effect of `static_cast<SignedT>` on a value of the unsigned type). -/
def toSignedInt (W : Nat) (n : Nat) : Int :=
  if n < 2 ^ (W - 1) then (n : Int) else (n : Int) - 2 ^ W

/-- `to_integral<SignedT>(u)` (golomb.h:135): inverse ZigZag.  `U` is `u`
cast to the unsigned type of `SignedT`; if the low bit is set the result is
`static_cast<SignedT>(~(U >> 1))`, else `static_cast<SignedT>(U >> 1)`. -/
def to_integral (W : Nat) (u : Nat) : Int :=
  let U := u % 2 ^ W
  if U &&& 1 = 1 then toSignedInt W ((2 ^ W - 1) - U >>> 1)
  else toSignedInt W (U >>> 1)

/-- `detail::make_mask<ValueT>(n_bits)` (golomb.h:62) in a `V`-bit word:
`(ValueT)(-1) >> (max_digits - n_bits)` when `n_bits` is nonzero, else `{}`. -/
def make_mask (V n_bits : Nat) : Nat :=
  if n_bits ≠ 0 then (2 ^ V - 1) >>> (V - n_bits) else 0

/-- State of a `pg::golomb::encoder<OutputIt, OutputDataT>` together with its
output: the chunks written so far (`detail::write` appends one chunk), the
`D`-bit accumulator `buffer` and `buffer_bits_free`. -/
structure EncState where
  out : List Nat
  buffer : Nat
  bitsFree : Nat
deriving DecidableEq

/-- The encoder constructed on an empty output (golomb.h:204). -/
def encInit (D : Nat) : EncState := ⟨[], 0, D⟩

/-- The zero-emission loop of `encoder::push` (golomb.h:236):
`while (zeros >= buffer_bits_free) { write(buffer); buffer = 0;`
`zeros -= buffer_bits_free; buffer_bits_free = D; }`.
The first argument is an iteration budget; `zeros + 2` iterations always
suffice (shown in `zeroLoop_spec`). -/
def zeroLoop (D : Nat) : Nat → Nat → EncState → Nat × EncState
  | 0, zeros, s => (zeros, s)
  | fuel + 1, zeros, s =>
    if zeros ≥ s.bitsFree then
      zeroLoop D fuel (zeros - s.bitsFree) ⟨s.out ++ [s.buffer], 0, D⟩
    else (zeros, s)

/-- The value-emission loop of the overruns-buffer `encoder::push`
(golomb.h:251): writes `dbw` bits of `data` MSB-first, spilling the buffer
whenever it fills.  `data` is a `W`-bit quantity, the buffer a `D`-bit one;
`2 * dbw + 3` iterations always suffice. -/
def dataLoop (W D : Nat) : Nat → Nat → Nat → EncState → EncState
  | 0, _, _, s => s
  | fuel + 1, dbw, data, s =>
    if dbw > 0 then
      if s.bitsFree = 0 then
        dataLoop W D fuel dbw data ⟨s.out ++ [s.buffer], 0, D⟩
      else if dbw < s.bitsFree then
        let shift := s.bitsFree - dbw
        dataLoop W D fuel 0 data
          ⟨s.out, (s.buffer ||| (data <<< shift) % 2 ^ W) % 2 ^ D, s.bitsFree - dbw⟩
      else
        let shift := dbw - s.bitsFree
        let mask := (make_mask W s.bitsFree <<< shift) % 2 ^ W
        let chunk := data &&& mask
        dataLoop W D fuel (dbw - s.bitsFree) (data &&& ((2 ^ W - 1) ^^^ mask))
          ⟨s.out, (s.buffer ||| chunk >>> shift) % 2 ^ D, 0⟩
    else s

/-- `encoder::push<k, InputValueT>` — the overruns-buffer overload
(golomb.h:220), used when the input width `W` is at least the chunk width
`D`.  `u` is the already-unsigned input value (`to_unsigned` of the pushed
value); all `W`-bit casts are `% 2^W`, all `D`-bit ones `% 2^D`. -/
def push1 (W D k u : Nat) (s : EncState) : EncState :=
  let base := (1 <<< k) % 2 ^ W
  let data := (u + base) % 2 ^ W
  let overflowed := data < u
  let data_bits_to_write := if overflowed then W else bit_width data
  let zeros := data_bits_to_write - (if overflowed then k else k + 1)
  let z := zeroLoop D (zeros + 2) zeros s
  let s2 : EncState := ⟨z.2.out, z.2.buffer, z.2.bitsFree - z.1⟩
  let s3 : EncState :=
    if overflowed then
      ⟨s2.out, (s2.buffer ||| 1 <<< (s2.bitsFree - 1)) % 2 ^ D, s2.bitsFree - 1⟩
    else s2
  dataLoop W D (2 * data_bits_to_write + 3) data_bits_to_write data s3

/-- `encoder::push<k, InputValueT>` — the non-overruns overload
(golomb.h:289), used when the input width `W` is strictly narrower than the
chunk width `D`; all arithmetic happens in the `D`-bit chunk type.
In the spill branch the source computes `buffer = data << shift2`; when
`shift2 = D` that C++ shift is undefined for chunk types without integer
promotion headroom — it is embedded here with the modular-value semantics
`% 2^D` (cf. the `shift2` reachability theorem below). -/
def push2 (W D k u : Nat) (s : EncState) : EncState :=
  let base := (1 <<< k) % 2 ^ D
  let data := (u + base) % 2 ^ D
  let data_bits_to_write := bit_width data
  let zeros := data_bits_to_write - (k + 1)
  let z :=
    if zeros ≥ s.bitsFree then
      (zeros - s.bitsFree, (⟨s.out ++ [s.buffer], 0, D⟩ : EncState))
    else (zeros, s)
  let s2 : EncState := ⟨z.2.out, z.2.buffer, z.2.bitsFree - z.1⟩
  if data_bits_to_write ≥ s2.bitsFree then
    let shift := data_bits_to_write - s2.bitsFree
    let shift2 := D - shift
    ⟨s2.out ++ [(s2.buffer ||| data >>> shift) % 2 ^ D], (data <<< shift2) % 2 ^ D, shift2⟩
  else
    let shift := s2.bitsFree - data_bits_to_write
    ⟨s2.out, (s2.buffer ||| data <<< shift) % 2 ^ D, s2.bitsFree - data_bits_to_write⟩

/-- `encoder::push<k>` overload resolution: `detail::overruns_buffer` selects
the overruns overload exactly when the unsigned input width is at least the
chunk width (golomb.h:57). -/
def pushU (W D k u : Nat) (s : EncState) : EncState :=
  if D ≤ W then push1 W D k u s else push2 W D k u s

/-- `encoder::push_switch<InputValueT, K>` (golomb.h:175): compile-time
descent `K = 0, 1, …` matching the runtime order `k`; at `K = max_K = W - 1`
the value is pushed with order `W - 1` regardless of `k`.  The second
argument is the remaining distance `max_K - K`. -/
def push_switch (W D u k : Nat) : Nat → Nat → EncState → EncState
  | K, 0, s => pushU W D (W - 1) u s
  | K, left + 1, s =>
    if k = K then pushU W D K u s else push_switch W D u k (K + 1) left s

/-- `encoder::push(x, k)` (golomb.h:331): runtime-order push. -/
def encPush (W D u k : Nat) (s : EncState) : EncState :=
  push_switch W D u k 0 (W - 1) s

/-- `encoder::flush` (golomb.h:342). -/
def flush (D : Nat) (s : EncState) : EncState :=
  if s.bitsFree < D then ⟨s.out ++ [s.buffer], 0, D⟩ else s

/-- `pg::golomb::encode(input, last, output, k)` (golomb.h:365) for an
unsigned value range: push every value, then flush; the result is the chunk
sequence written to the output iterator. -/
def encode_u (W D k : Nat) (xs : List Nat) : List Nat :=
  (flush D (xs.foldl (fun s u => encPush W D u k s) (encInit D))).out

/-- `pg::golomb::encode` for a signed value range: `push` applies
`to_unsigned` to each value (golomb.h:229). -/
def encode_s (W D k : Nat) (xs : List Int) : List Nat :=
  (flush D (xs.foldl (fun s x => encPush W D (to_unsigned W x) k s) (encInit D))).out

/-- State of a `pg::golomb::decoder<InputIt>`: the chunks not yet read
(`detail::read` pops one), the current chunk `data` and
`data_bits_remaining`. -/
structure DecState where
  input : List Nat
  bitsRem : Nat
  data : Nat
deriving DecidableEq

/-- The decoder constructor (golomb.h:495): primes `data` with the first
chunk when the input is nonempty. -/
def decInit (D : Nat) (chunks : List Nat) : DecState :=
  match chunks with
  | [] => ⟨[], 0, 0⟩
  | c :: rest => ⟨rest, D, c⟩

/-- `decoder::check_data` (golomb.h:471): `none` when no bits are buffered
and the input is exhausted. -/
def checkData (D : Nat) (s : DecState) : Option DecState :=
  if s.bitsRem ≠ 0 then some s
  else
    match s.input with
    | [] => none
    | c :: rest => some ⟨rest, D, c⟩

/-- The zero-scanning loop of `decoder::pull` (golomb.h:524): counts leading
zero bits using `bit_width` of the current chunk; `(some zeros, s)` once a 1
bit is in view, `(none, s)` when the input runs out. `|input| + 2`
iterations always suffice. -/
def scanZeros (D : Nat) : Nat → Nat → DecState → Option Nat × DecState
  | 0, _, s => (none, s)
  | fuel + 1, zeros, s =>
    match checkData D s with
    | none => (none, s)
    | some s1 =>
      let bw := bit_width s1.data
      let counted := s1.bitsRem - bw
      let s2 : DecState := ⟨s1.input, bw, s1.data⟩
      if s2.data = 0 then scanZeros D fuel (zeros + counted) s2
      else (some (zeros + counted), s2)

/-- The value-reading loop of `decoder::pull` (golomb.h:554): reads `digits`
bits MSB-first into the `W`-bit accumulator `buffer`; `none` when the input
is exhausted mid-read.  `digits + 1` iterations always suffice. -/
def readBits (D W : Nat) : Nat → Nat → Nat → DecState → Option Nat × DecState
  | 0, _, _, s => (none, s)
  | fuel + 1, digits, buffer, s =>
    let step : DecState → Nat × Nat × DecState := fun s1 =>
      if digits ≥ s1.bitsRem then
        let shift := digits - s1.bitsRem
        ((buffer ||| s1.data <<< shift) % 2 ^ W, digits - s1.bitsRem,
          (⟨s1.input, 0, s1.data⟩ : DecState))
      else
        let shift := s1.bitsRem - digits
        let br := s1.bitsRem - digits
        ((buffer ||| s1.data >>> shift) % 2 ^ W, 0,
          (⟨s1.input, br, s1.data &&& make_mask D br⟩ : DecState))
    if digits ≠ 0 then
      match checkData D s with
      | none => (none, s)
      | some s1 =>
        let r := step s1
        if r.2.1 ≠ 0 then readBits D W fuel r.2.1 r.1 r.2.2
        else (some r.1, r.2.2)
    else
      let r := step s
      if r.2.1 ≠ 0 then readBits D W fuel r.2.1 r.1 r.2.2
      else (some r.1, r.2.2)

/-- Result of `decoder::pull` (`decoder_result`, golomb.h:412); the carried
value of `done` is `{}` and is dropped here. -/
inductive PullRes where
  | success (v : Nat)
  | done
  | zeroOverflow (n : Nat)
deriving DecidableEq

/-- `decoder::pull<OutputValueT, k>` (golomb.h:512).  `W` is the number of
binary digits of the unsigned type of `OutputValueT` and `maxOut` is
`std::numeric_limits<OutputValueT>::max()` (`2^W - 1` for an unsigned
output type, `2^(W-1) - 1` for a signed one); the reconstructed value is
the unsigned `buffered_value`, `to_integral` being applied by the signed
wrappers below. -/
def pullCore (D W maxOut k : Nat) (s : DecState) : PullRes × DecState :=
  match scanZeros D (s.input.length + 2) 0 s with
  | (none, s') => (.done, s')
  | (some zeros, s1) =>
    let br := s1.bitsRem - 1
    let s2 : DecState := ⟨s1.input, br, s1.data &&& ((2 ^ D - 1) ^^^ 1 <<< br)⟩
    let digits := zeros + k
    if digits > W then
      (.zeroOverflow (min maxOut zeros), s2)
    else
      match readBits D W (digits + 1) digits 0 s2 with
      | (none, s3) => (.done, s3)
      | (some buffer, s3) =>
        let base := (make_mask W zeros <<< k) % 2 ^ W
        (.success ((buffer + base) % 2 ^ W), s3)

/-- `decoder::pull_switch<OutputValueT, K>` (golomb.h:450): compile-time
descent matching the runtime order `k`; at `K = max_K = W - 1` the pull uses
order `W - 1` regardless of `k`.  Second argument: remaining `max_K - K`. -/
def pull_switch (D W maxOut k : Nat) : Nat → Nat → DecState → PullRes × DecState
  | _, 0, s => pullCore D W maxOut (W - 1) s
  | K, left + 1, s =>
    if k = K then pullCore D W maxOut K s
    else pull_switch D W maxOut k (K + 1) left s

/-- `decoder::pull<OutputValueT>(k)` (golomb.h:604): runtime-order pull. -/
def decPull (D W maxOut k : Nat) (s : DecState) : PullRes × DecState :=
  pull_switch D W maxOut k 0 (W - 1) s

/-- `decoder::has_data` (golomb.h:617). -/
def hasData (s : DecState) : Bool :=
  s.bitsRem != 0 || !s.input.isEmpty

/-- The loop of `pg::golomb::decode` (golomb.h:648): while `has_data`, pull
with the runtime order; the pulled value is written to the output only on
`success`. -/
def decodeLoop (D W maxOut k : Nat) : Nat → DecState → List Nat
  | 0, _ => []
  | fuel + 1, s =>
    if hasData s then
      match decPull D W maxOut k s with
      | (.success v, s') => v :: decodeLoop D W maxOut k fuel s'
      | (_, s') => decodeLoop D W maxOut k fuel s'
    else []

/-- `pg::golomb::decode<OutputValueT>` (golomb.h:640) for an unsigned output
type of width `W`; one pull consumes at least one bit, so
`D * |chunks| + D + 2` loop iterations always suffice. -/
def decode_u (W D k : Nat) (chunks : List Nat) : List Nat :=
  decodeLoop D W (2 ^ W - 1) k (D * chunks.length + D + 2) (decInit D chunks)

/-- The decode loop for a signed output type: `pull` clamps overflowed zero
counts with the signed maximum and delivers `to_integral` of the decoded
unsigned value. -/
def decodeLoopS (D W k : Nat) : Nat → DecState → List Int
  | 0, _ => []
  | fuel + 1, s =>
    if hasData s then
      match decPull D W (2 ^ (W - 1) - 1) k s with
      | (.success v, s') => to_integral W v :: decodeLoopS D W k fuel s'
      | (_, s') => decodeLoopS D W k fuel s'
    else []

/-- `pg::golomb::decode<OutputValueT>` for a signed output type. -/
def decode_s (W D k : Nat) (chunks : List Nat) : List Int :=
  decodeLoopS D W k (D * chunks.length + D + 2) (decInit D chunks)

/-- The loop of `adaptive_encode` (util/golomb.cpp:452): push each unsigned
magnitude with the current order, then update the order by the integer
exponential moving average `k ← k - (k >> N) + (bit_width u >> N)`. -/
def adaptiveEncodeLoop (W D N : Nat) : Nat → List Nat → EncState → EncState
  | _, [], s => s
  | k, u :: us, s =>
    adaptiveEncodeLoop W D N (k - (k >>> N) + (bit_width u >>> N)) us
      (encPush W D u k s)

/-- `adaptive_encode<InputValueT, OutputDataT>` (util/golomb.cpp:433) on the
unsigned magnitudes of its input. -/
def adaptive_encode (W D N k : Nat) (xs : List Nat) : List Nat :=
  (flush D (adaptiveEncodeLoop W D N k xs (encInit D))).out

/-- `adaptive_encode` on a signed input range: each value passes through
`to_unsigned` before being pushed (util/golomb.cpp:454). -/
def adaptiveEncodeLoopS (W D N : Nat) : Nat → List Int → EncState → EncState
  | _, [], s => s
  | k, x :: xs, s =>
    adaptiveEncodeLoopS W D N
      (k - (k >>> N) + (bit_width (to_unsigned W x) >>> N)) xs
      (encPush W D (to_unsigned W x) k s)

def adaptive_encode_s (W D N k : Nat) (xs : List Int) : List Nat :=
  (flush D (adaptiveEncodeLoopS W D N k xs (encInit D))).out

/-- The loop of `adaptive_decode` (util/golomb.cpp:535): pull the unsigned
value with the current order (`pull<UnsignedOutputValueT>`, so `maxOut` is
the unsigned maximum); on `success` update the order from the decoded
magnitude and write the value. -/
def adaptiveDecodeLoop (W D N : Nat) : Nat → Nat → DecState → List Nat
  | 0, _, _ => []
  | fuel + 1, k, s =>
    if hasData s then
      match decPull D W (2 ^ W - 1) k s with
      | (.success v, s') =>
        v :: adaptiveDecodeLoop W D N fuel (k - (k >>> N) + (bit_width v >>> N)) s'
      | (_, s') => adaptiveDecodeLoop W D N fuel k s'
    else []

/-- `adaptive_decode<InputDataT, OutputValueT>` (util/golomb.cpp:517) for an
unsigned output type. -/
def adaptive_decode (W D N k : Nat) (chunks : List Nat) : List Nat :=
  adaptiveDecodeLoop W D N (D * chunks.length + D + 2) k (decInit D chunks)

/-- `adaptive_decode` for a signed output type: the loop pulls and updates
with the unsigned magnitude and writes `to_integral` of it
(util/golomb.cpp:541). -/
def adaptive_decode_s (W D N k : Nat) (chunks : List Nat) : List Int :=
  (adaptive_decode W D N k chunks).map (to_integral W)

/-- The orders used by the `adaptive_encode` loop, one per pushed value (the
pre-update `k` of each iteration). -/
def adaptiveEncodeKs (N : Nat) : Nat → List Nat → List Nat
  | _, [] => []
  | k, u :: us => k :: adaptiveEncodeKs N (k - (k >>> N) + (bit_width u >>> N)) us

/-- The orders used by the `adaptive_decode` loop, one per successful pull
(the pre-update `k` of each decoded value). -/
def adaptiveDecodeKs (W D N : Nat) : Nat → Nat → DecState → List Nat
  | 0, _, _ => []
  | fuel + 1, k, s =>
    if hasData s then
      match decPull D W (2 ^ W - 1) k s with
      | (.success v, s') =>
        k :: adaptiveDecodeKs W D N fuel (k - (k >>> N) + (bit_width v >>> N)) s'
      | (_, s') => adaptiveDecodeKs W D N fuel k s'
    else []

/-- The Exp-Golomb-k codeword that `encoder::push` emits for the unsigned
`W`-bit value `u` (established by the push lemmas below): without overflow,
`bit_width v - k - 1` zero bits followed by the `bit_width v` bits of
`v = u + 2^k`; with overflow (`u + 2^k ≥ 2^W`), `W - k` zero bits, a 1 bit,
and the low `W` bits of `u + 2^k`. -/
def codewordBits (W k u : Nat) : List Bool :=
  if u + 2 ^ k < 2 ^ W then
    List.replicate (bit_width (u + 2 ^ k) - (k + 1)) false ++
      bitsOfNat (bit_width (u + 2 ^ k)) (u + 2 ^ k)
  else
    List.replicate (W - k) false ++ true :: bitsOfNat W ((u + 2 ^ k) % 2 ^ W)

/-- The bit stream an encoder state stands for: the bits of the chunks
written so far followed by the `D - bitsFree` buffered bits. -/
def encBits (D : Nat) (s : EncState) : List Bool :=
  s.out.flatMap (bitsOfNat D) ++ bitsOfNat (D - s.bitsFree) (s.buffer >>> s.bitsFree)

/-- Encoder invariant: `bitsFree ≤ D`, the buffer is a `D`-bit value whose
low `bitsFree` bits are zero, and every written chunk is a `D`-bit value. -/
def EncInv (D : Nat) (s : EncState) : Prop :=
  s.bitsFree ≤ D ∧ s.buffer < 2 ^ D ∧ s.buffer % 2 ^ s.bitsFree = 0 ∧
    ∀ c ∈ s.out, c < 2 ^ D

/-- The bit stream still to be read by a decoder state: the low `bitsRem`
bits of `data` followed by the bits of the unread chunks. -/
def decBits (D : Nat) (s : DecState) : List Bool :=
  bitsOfNat s.bitsRem s.data ++ s.input.flatMap (bitsOfNat D)

/-- Decoder invariant: `bitsRem ≤ D`, `data` fits in `bitsRem` bits whenever
bits are buffered, and every unread chunk is a `D`-bit value.  (`data` is
dead when `bitsRem = 0`: `check_data` refetches before any use.) -/
def DecInv (D : Nat) (s : DecState) : Prop :=
  s.bitsRem ≤ D ∧ (s.bitsRem = 0 ∨ s.data < 2 ^ s.bitsRem) ∧
    ∀ c ∈ s.input, c < 2 ^ D

theorem bitsOfNat_mod_self (n x : Nat) : bitsOfNat n (x % 2 ^ n) = bitsOfNat n x :=
  bitsOfNat_mod x le_rfl

theorem buffer_add_lt {D b buffer x : Nat} (hlow : buffer % 2 ^ b = 0)
    (hbuf : buffer < 2 ^ D) (hbf : b ≤ D) (hx : x < 2 ^ b) :
    buffer + x < 2 ^ D := by
  have hdvd : 2 ^ b ∣ buffer := Nat.dvd_of_mod_eq_zero hlow
  obtain ⟨q, hq⟩ := hdvd
  have hq2 : q < 2 ^ (D - b) := by
    by_contra hcon
    have : 2 ^ b * 2 ^ (D - b) ≤ buffer := by
      rw [hq]
      exact Nat.mul_le_mul_left _ (by omega)
    rw [← pow_add] at this
    have hDb : b + (D - b) = D := by omega
    rw [hDb] at this
    omega
  have : buffer + x < 2 ^ b * (q + 1) := by
    rw [hq, Nat.mul_add, Nat.mul_one]
    omega
  have h2 : 2 ^ b * (q + 1) ≤ 2 ^ b * 2 ^ (D - b) :=
    Nat.mul_le_mul_left _ (by omega)
  rw [← pow_add] at h2
  have hDb : b + (D - b) = D := by omega
  rw [hDb] at h2
  omega

theorem or_write {D b buffer x : Nat} (hlow : buffer % 2 ^ b = 0)
    (hbuf : buffer < 2 ^ D) (hbf : b ≤ D) (hx : x < 2 ^ b) :
    (buffer ||| x) % 2 ^ D = buffer + x := by
  rw [or_eq_add_of_disjoint hlow hx]
  exact Nat.mod_eq_of_lt (buffer_add_lt hlow hbuf hbf hx)

theorem encBits_emit {D : Nat} (s : EncState) (hInv : EncInv D s) :
    encBits D ⟨s.out ++ [s.buffer], 0, D⟩ =
      encBits D s ++ List.replicate s.bitsFree false := by
  obtain ⟨hbf, hbuf, hlow, hout⟩ := hInv
  simp only [encBits, List.flatMap_append, List.flatMap_cons, List.flatMap_nil]
  rw [Nat.sub_self]
  have hsplit : bitsOfNat D s.buffer =
      bitsOfNat (D - s.bitsFree) (s.buffer >>> s.bitsFree) ++
        List.replicate s.bitsFree false := by
    have h1 : D = (D - s.bitsFree) + s.bitsFree := by omega
    conv_lhs => rw [h1, bitsOfNat_add]
    congr 1
    have h2 := bitsOfNat_mod_self s.bitsFree s.buffer
    rw [hlow, bitsOfNat_zero_val] at h2
    exact h2.symm
  rw [hsplit]
  simp [bitsOfNat, List.append_assoc]

theorem encBits_write {D : Nat} (s : EncState) (hInv : EncInv D s) (n x : Nat)
    (hx : x < 2 ^ n) (hn : n ≤ s.bitsFree) :
    EncInv D ⟨s.out, s.buffer + x * 2 ^ (s.bitsFree - n), s.bitsFree - n⟩ ∧
      encBits D ⟨s.out, s.buffer + x * 2 ^ (s.bitsFree - n), s.bitsFree - n⟩ =
        encBits D s ++ bitsOfNat n x := by
  obtain ⟨hbf, hbuf, hlow, hout⟩ := hInv
  have hxs : x * 2 ^ (s.bitsFree - n) < 2 ^ s.bitsFree := by
    have h1 : x * 2 ^ (s.bitsFree - n) < 2 ^ n * 2 ^ (s.bitsFree - n) :=
      (Nat.mul_lt_mul_right (Nat.pos_pow_of_pos _ (by norm_num))).mpr hx
    rw [← pow_add] at h1
    have h2 : n + (s.bitsFree - n) = s.bitsFree := by omega
    rwa [h2] at h1
  have hdvd : 2 ^ s.bitsFree ∣ s.buffer := Nat.dvd_of_mod_eq_zero hlow
  obtain ⟨q, hq⟩ := hdvd
  have hpow : 2 ^ s.bitsFree = 2 ^ (s.bitsFree - n) * 2 ^ n := by
    rw [← pow_add]
    congr 1
    omega
  have hpend : s.buffer / 2 ^ s.bitsFree * 2 ^ n + x < 2 ^ ((D - s.bitsFree) + n) := by
    have hql : s.buffer / 2 ^ s.bitsFree < 2 ^ (D - s.bitsFree) := by
      rw [Nat.div_lt_iff_lt_mul (Nat.pos_pow_of_pos _ (by norm_num)), ← pow_add]
      have h2 : D - s.bitsFree + s.bitsFree = D := by omega
      rw [h2]
      exact hbuf
    calc s.buffer / 2 ^ s.bitsFree * 2 ^ n + x
        < s.buffer / 2 ^ s.bitsFree * 2 ^ n + 2 ^ n := Nat.add_lt_add_left hx _
      _ = (s.buffer / 2 ^ s.bitsFree + 1) * 2 ^ n := by ring
      _ ≤ 2 ^ (D - s.bitsFree) * 2 ^ n := by
          have hstep : s.buffer / 2 ^ s.bitsFree + 1 ≤ 2 ^ (D - s.bitsFree) :=
            Nat.succ_le_of_lt hql
          exact Nat.mul_le_mul_right _ hstep
      _ = 2 ^ ((D - s.bitsFree) + n) := by rw [pow_add]
  constructor
  · refine ⟨show s.bitsFree - n ≤ D by omega, buffer_add_lt hlow hbuf hbf hxs, ?_, hout⟩
    have h1 : 2 ^ (s.bitsFree - n) ∣ s.buffer + x * 2 ^ (s.bitsFree - n) := by
      refine Nat.dvd_add ?_ (Dvd.intro_left x rfl)
      rw [hq, hpow]
      exact ⟨2 ^ n * q, by ring⟩
    exact Nat.dvd_iff_mod_eq_zero.mp h1
  · simp only [encBits]
    have e1 : s.buffer / 2 ^ (s.bitsFree - n) = 2 ^ n * q := by
      rw [hq, hpow, Nat.mul_assoc,
        Nat.mul_div_cancel_left _ (Nat.pos_pow_of_pos _ (by norm_num))]
    have e2 : s.buffer / 2 ^ s.bitsFree = q := by
      rw [hq, Nat.mul_div_cancel_left _ (Nat.pos_pow_of_pos _ (by norm_num))]
    have hshift : (s.buffer + x * 2 ^ (s.bitsFree - n)) >>> (s.bitsFree - n) =
        (s.buffer >>> s.bitsFree) * 2 ^ n + x := by
      rw [Nat.shiftRight_eq_div_pow, Nat.shiftRight_eq_div_pow,
        Nat.add_mul_div_right _ _ (Nat.pos_pow_of_pos _ (by norm_num)), e1, e2]
      ring
    have hD2 : D - (s.bitsFree - n) = (D - s.bitsFree) + n := by omega
    rw [hshift, hD2, bitsOfNat_add]
    have h3 : ((s.buffer >>> s.bitsFree) * 2 ^ n + x) >>> n = s.buffer >>> s.bitsFree := by
      rw [Nat.shiftRight_eq_div_pow, Nat.add_comm,
        Nat.add_mul_div_right _ _ (Nat.pos_pow_of_pos _ (by norm_num)),
        Nat.div_eq_of_lt hx]
      omega
    have h4 : bitsOfNat n ((s.buffer >>> s.bitsFree) * 2 ^ n + x) = bitsOfNat n x := by
      have e3 : ((s.buffer >>> s.bitsFree) * 2 ^ n + x) % 2 ^ n = x := by
        rw [Nat.mul_comm (s.buffer >>> s.bitsFree) (2 ^ n), Nat.mul_add_mod,
          Nat.mod_eq_of_lt hx]
      rw [← bitsOfNat_mod_self n ((s.buffer >>> s.bitsFree) * 2 ^ n + x), e3]
    rw [h3, h4, List.append_assoc]

theorem EncInv_emit {D : Nat} (s : EncState) (hInv : EncInv D s) :
    EncInv D ⟨s.out ++ [s.buffer], 0, D⟩ := by
  obtain ⟨hbf, hbuf, hlow, hout⟩ := hInv
  refine ⟨le_rfl, Nat.pos_pow_of_pos _ (by norm_num), by simp, ?_⟩
  intro c hc
  rcases List.mem_append.mp hc with h | h
  · exact hout c h
  · rw [List.mem_singleton] at h
    exact h ▸ hbuf

theorem encBits_subFree {D : Nat} (s : EncState) (hInv : EncInv D s) (z : Nat)
    (hz : z ≤ s.bitsFree) :
    EncInv D ⟨s.out, s.buffer, s.bitsFree - z⟩ ∧
      encBits D ⟨s.out, s.buffer, s.bitsFree - z⟩ =
        encBits D s ++ List.replicate z false := by
  have h := encBits_write s hInv z 0 (Nat.pos_pow_of_pos _ (by norm_num)) hz
  simpa using h

theorem zeroLoop_go {D : Nat} (hD : 0 < D) :
    ∀ fuel zeros s, EncInv D s → 1 ≤ s.bitsFree → zeros + 1 ≤ fuel →
    ∃ z' s', zeroLoop D fuel zeros s = (z', s') ∧ EncInv D s' ∧
      z' < s'.bitsFree ∧ z' ≤ zeros ∧
      encBits D s' = encBits D s ++ List.replicate (zeros - z') false := by
  intro fuel
  induction fuel with
  | zero =>
    intro zeros s _ _ h
    omega
  | succ fuel ih =>
    intro zeros s hInv hbf hfuel
    simp only [zeroLoop]
    by_cases hc : zeros ≥ s.bitsFree
    · rw [if_pos hc]
      obtain ⟨z', s', heq, h1, h2, h3, h4⟩ :=
        ih (zeros - s.bitsFree) ⟨s.out ++ [s.buffer], 0, D⟩
          (EncInv_emit s hInv) (by simpa using hD) (by omega)
      refine ⟨z', s', heq, h1, h2, by omega, ?_⟩
      rw [h4, encBits_emit s hInv, List.append_assoc, ← List.replicate_add]
      have he : s.bitsFree + (zeros - s.bitsFree - z') = zeros - z' := by omega
      rw [he]
    · rw [if_neg hc]
      exact ⟨zeros, s, rfl, hInv, by omega, le_rfl, by simp⟩

theorem zeroLoop_spec {D : Nat} (hD : 0 < D) (zeros : Nat) (s : EncState)
    (hInv : EncInv D s) :
    ∃ z' s', zeroLoop D (zeros + 2) zeros s = (z', s') ∧ EncInv D s' ∧
      z' < s'.bitsFree ∧ z' ≤ zeros ∧
      encBits D s' = encBits D s ++ List.replicate (zeros - z') false := by
  by_cases hbf : 1 ≤ s.bitsFree
  · exact zeroLoop_go hD (zeros + 2) zeros s hInv hbf (by omega)
  · have hbf0 : s.bitsFree = 0 := by omega
    have hstep : zeroLoop D (zeros + 2) zeros s =
        zeroLoop D (zeros + 1) zeros ⟨s.out ++ [s.buffer], 0, D⟩ := by
      show zeroLoop D ((zeros + 1) + 1) zeros s = _
      simp only [zeroLoop]
      rw [if_pos (by omega), hbf0, Nat.sub_zero]
    obtain ⟨z', s', heq, h1, h2, h3, h4⟩ :=
      zeroLoop_go hD (zeros + 1) zeros ⟨s.out ++ [s.buffer], 0, D⟩
        (EncInv_emit s hInv) (by simpa using hD) le_rfl
    refine ⟨z', s', hstep ▸ heq, h1, h2, h3, ?_⟩
    rw [h4, encBits_emit s hInv, hbf0]
    simp

theorem make_mask_eq {V n : Nat} (hn : n ≤ V) : make_mask V n = 2 ^ n - 1 := by
  unfold make_mask
  by_cases h0 : n = 0
  · simp [h0]
  · rw [if_pos h0]
    rw [Nat.shiftRight_eq_div_pow]
    have h2 : 0 < 2 ^ (V - n) := Nat.pos_pow_of_pos _ (by norm_num)
    have h3 : 0 < 2 ^ n := Nat.pos_pow_of_pos _ (by norm_num)
    have h1 : 2 ^ V = 2 ^ n * 2 ^ (V - n) := by
      rw [← pow_add]
      congr 1
      omega
    have hV : 2 ^ V - 1 = (2 ^ (V - n) - 1) + (2 ^ n - 1) * 2 ^ (V - n) := by
      rw [Nat.sub_mul, one_mul, h1]
      have h4 : 2 ^ (V - n) ≤ 2 ^ n * 2 ^ (V - n) :=
        Nat.le_mul_of_pos_left _ h3
      omega
    rw [hV, Nat.add_mul_div_right _ _ h2, Nat.div_eq_of_lt (by omega)]
    omega

theorem and_mask_shift {x f sh : Nat} :
    (x &&& (2 ^ f - 1) <<< sh) >>> sh = (x >>> sh) % 2 ^ f := by
  apply Nat.eq_of_testBit_eq
  intro i
  rw [Nat.testBit_shiftRight, Nat.testBit_and, Nat.testBit_shiftLeft,
    Nat.testBit_two_pow_sub_one, Nat.testBit_mod_two_pow, Nat.testBit_shiftRight]
  by_cases hif : i < f
  · simp [hif, show sh ≤ sh + i by omega, show sh + i - sh = i by omega]
  · simp [hif, show sh + i - sh = i by omega]

theorem dataLoop_zero {W D : Nat} (fuel data : Nat) (s : EncState) (hf : 1 ≤ fuel) :
    dataLoop W D fuel 0 data s = s := by
  cases fuel with
  | zero => omega
  | succ fuel => simp [dataLoop]

theorem dataLoop_spec {W D : Nat} (hD : 0 < D) (hDW : D ≤ W) :
    ∀ fuel dbw data s, EncInv D s → data < 2 ^ dbw → dbw ≤ W →
    2 * dbw + 1 + (if s.bitsFree = 0 then 1 else 0) ≤ fuel →
    EncInv D (dataLoop W D fuel dbw data s) ∧
      encBits D (dataLoop W D fuel dbw data s) =
        encBits D s ++ bitsOfNat dbw data := by
  intro fuel
  induction fuel with
  | zero =>
    intro dbw data s _ _ _ h
    split at h <;> omega
  | succ fuel ih =>
    intro dbw data s hInv hdata hdbw hfuel
    simp only [dataLoop]
    by_cases h0 : dbw > 0
    case neg =>
      rw [if_neg h0]
      have hz : dbw = 0 := by omega
      subst hz
      exact ⟨hInv, by simp [bitsOfNat]⟩
    case pos =>
      rw [if_pos h0]
      by_cases hbf0 : s.bitsFree = 0
      · rw [if_pos hbf0]
        rw [if_pos hbf0] at hfuel
        have hrec := ih dbw data ⟨s.out ++ [s.buffer], 0, D⟩ (EncInv_emit s hInv)
          hdata hdbw
          (by
            have hh : (⟨s.out ++ [s.buffer], 0, D⟩ : EncState).bitsFree = D := rfl
            rw [hh, if_neg (by omega : ¬D = 0)]
            omega)
        refine ⟨hrec.1, ?_⟩
        rw [hrec.2, encBits_emit s hInv, hbf0]
        simp
      · rw [if_neg hbf0]
        by_cases hlt : dbw < s.bitsFree
        · rw [if_pos hlt]
          have hsum : dbw + (s.bitsFree - dbw) = s.bitsFree := by omega
          have hsh : (data <<< (s.bitsFree - dbw)) % 2 ^ W =
              data * 2 ^ (s.bitsFree - dbw) := by
            rw [Nat.shiftLeft_eq]
            apply Nat.mod_eq_of_lt
            calc data * 2 ^ (s.bitsFree - dbw)
                < 2 ^ dbw * 2 ^ (s.bitsFree - dbw) :=
                  (Nat.mul_lt_mul_right (Nat.pos_pow_of_pos _ (by norm_num))).mpr hdata
              _ = 2 ^ s.bitsFree := by rw [← pow_add, hsum]
              _ ≤ 2 ^ W := Nat.pow_le_pow_right (by norm_num) (le_trans hInv.1 hDW)
          have hxlt : data * 2 ^ (s.bitsFree - dbw) < 2 ^ s.bitsFree := by
            calc data * 2 ^ (s.bitsFree - dbw)
                < 2 ^ dbw * 2 ^ (s.bitsFree - dbw) :=
                  (Nat.mul_lt_mul_right (Nat.pos_pow_of_pos _ (by norm_num))).mpr hdata
              _ = 2 ^ s.bitsFree := by rw [← pow_add, hsum]
          have hor : (s.buffer ||| data * 2 ^ (s.bitsFree - dbw)) % 2 ^ D =
              s.buffer + data * 2 ^ (s.bitsFree - dbw) :=
            or_write hInv.2.2.1 hInv.2.1 hInv.1 hxlt
          rw [hsh, hor, dataLoop_zero _ _ _ (by omega)]
          exact encBits_write s hInv dbw data hdata (by omega)
        · rw [if_neg hlt]
          have hbf1 : 1 ≤ s.bitsFree := by omega
          have hble : s.bitsFree ≤ dbw := by omega
          have hsum : (dbw - s.bitsFree) + s.bitsFree = dbw := by omega
          have hmm : make_mask W s.bitsFree = 2 ^ s.bitsFree - 1 :=
            make_mask_eq (le_trans hInv.1 hDW)
          have hmlt : (2 ^ s.bitsFree - 1) * 2 ^ (dbw - s.bitsFree) < 2 ^ W := by
            calc (2 ^ s.bitsFree - 1) * 2 ^ (dbw - s.bitsFree)
                < 2 ^ s.bitsFree * 2 ^ (dbw - s.bitsFree) :=
                  (Nat.mul_lt_mul_right (Nat.pos_pow_of_pos _ (by norm_num))).mpr
                    (Nat.sub_lt (Nat.pos_pow_of_pos _ (by norm_num)) (by norm_num))
              _ = 2 ^ dbw := by rw [← pow_add]; congr 1; omega
              _ ≤ 2 ^ W := Nat.pow_le_pow_right (by norm_num) hdbw
          have hmask : (make_mask W s.bitsFree <<< (dbw - s.bitsFree)) % 2 ^ W =
              (2 ^ s.bitsFree - 1) <<< (dbw - s.bitsFree) := by
            rw [hmm]
            apply Nat.mod_eq_of_lt
            rw [Nat.shiftLeft_eq]
            exact hmlt
          have hdivlt : data >>> (dbw - s.bitsFree) < 2 ^ s.bitsFree := by
            rw [Nat.shiftRight_eq_div_pow,
              Nat.div_lt_iff_lt_mul (Nat.pos_pow_of_pos _ (by norm_num)), ← pow_add]
            have he : s.bitsFree + (dbw - s.bitsFree) = dbw := by omega
            rw [he]
            exact hdata
          have hchunk : (data &&& (2 ^ s.bitsFree - 1) <<< (dbw - s.bitsFree)) >>>
              (dbw - s.bitsFree) = data >>> (dbw - s.bitsFree) := by
            rw [and_mask_shift]
            exact Nat.mod_eq_of_lt hdivlt
          have hdata2 : data &&&
              ((2 ^ W - 1) ^^^ (2 ^ s.bitsFree - 1) <<< (dbw - s.bitsFree)) =
              data % 2 ^ (dbw - s.bitsFree) := by
            apply and_xor_mask
            · rw [hsum]
              exact hdata
            · omega
          have hor : (s.buffer ||| data >>> (dbw - s.bitsFree)) % 2 ^ D =
              s.buffer + data >>> (dbw - s.bitsFree) :=
            or_write hInv.2.2.1 hInv.2.1 hInv.1 hdivlt
          rw [hmask, hchunk, hdata2, hor]
          have hw := encBits_write s hInv s.bitsFree (data >>> (dbw - s.bitsFree))
            hdivlt le_rfl
          rw [Nat.sub_self, pow_zero, Nat.mul_one] at hw
          have hrec := ih (dbw - s.bitsFree) (data % 2 ^ (dbw - s.bitsFree))
            ⟨s.out, s.buffer + data >>> (dbw - s.bitsFree), 0⟩ hw.1
            (Nat.mod_lt _ (Nat.pos_pow_of_pos _ (by norm_num))) (by omega)
            (by
              have hh : (⟨s.out, s.buffer + data >>> (dbw - s.bitsFree), 0⟩ :
                  EncState).bitsFree = 0 := rfl
              rw [hh, if_pos rfl]
              omega)
          refine ⟨hrec.1, ?_⟩
          rw [hrec.2, hw.2, List.append_assoc]
          congr 1
          have hsum2 : s.bitsFree + (dbw - s.bitsFree) = dbw := by omega
          conv_rhs => rw [← hsum2, bitsOfNat_add]
          congr 1
          exact (bitsOfNat_mod_self _ _)

theorem push1_bits {W D k u : Nat} (hD : 0 < D) (hDW : D ≤ W) (hk : k < W)
    (hu : u < 2 ^ W) (s : EncState) (hInv : EncInv D s) :
    EncInv D (push1 W D k u s) ∧
      encBits D (push1 W D k u s) = encBits D s ++ codewordBits W k u := by
  have hkW : 2 ^ k < 2 ^ W := Nat.pow_lt_pow_right (by norm_num) hk
  have hbase : (1 <<< k) % 2 ^ W = 2 ^ k := by
    rw [Nat.shiftLeft_eq, one_mul]
    exact Nat.mod_eq_of_lt hkW
  have hkpos : 0 < 2 ^ k := Nat.pos_pow_of_pos _ (by norm_num)
  simp only [push1, hbase]
  by_cases hov : u + 2 ^ k < 2 ^ W
  · -- non-overflow case
    rw [Nat.mod_eq_of_lt hov]
    have hovneg : ¬u + 2 ^ k < u := by omega
    simp only [if_neg hovneg]
    set v := u + 2 ^ k with hv
    have hvpos : v ≠ 0 := by omega
    have hdbwk : k + 1 ≤ bit_width v := by
      have := lt_bit_width_iff (n := v) (b := k)
      omega
    have hdbwW : bit_width v ≤ W := bit_width_le_iff.mpr hov
    obtain ⟨z', s', heq, hInv', hzlt, hzle, hbits'⟩ :=
      zeroLoop_spec hD (bit_width v - (k + 1)) s hInv
    rw [heq]
    simp only []
    obtain ⟨hInv2, hbits2⟩ :=
      encBits_subFree s' hInv' z' (by omega)
    obtain ⟨hInv3, hbits3⟩ :=
      dataLoop_spec hD hDW (2 * bit_width v + 3) (bit_width v) v
        ⟨s'.out, s'.buffer, s'.bitsFree - z'⟩ hInv2 (lt_two_pow_bit_width v) hdbwW
        (by split <;> omega)
    refine ⟨hInv3, ?_⟩
    rw [hbits3, hbits2, hbits']
    rw [codewordBits, if_pos hov]
    simp only [List.append_assoc, ← hv]
    congr 1
    rw [← List.append_assoc, ← List.replicate_add]
    congr 2
    omega
  · -- overflow case
    have hsum2 : u + 2 ^ k < 2 ^ W + 2 ^ W := by omega
    have hlt2 : u + 2 ^ k - 2 ^ W < 2 ^ W := by omega
    have hdata : (u + 2 ^ k) % 2 ^ W = u + 2 ^ k - 2 ^ W := by
      rw [Nat.mod_eq_sub_mod (by omega), Nat.mod_eq_of_lt hlt2]
    rw [hdata]
    have hovpos : u + 2 ^ k - 2 ^ W < u := by omega
    simp only [if_pos hovpos]
    obtain ⟨z', s', heq, hInv', hzlt, hzle, hbits'⟩ :=
      zeroLoop_spec hD (W - k) s hInv
    rw [heq]
    simp only []
    obtain ⟨hInv2, hbits2⟩ :=
      encBits_subFree s' hInv' z' (by omega)
    set s2 : EncState := ⟨s'.out, s'.buffer, s'.bitsFree - z'⟩ with hs2
    have hbf2 : 1 ≤ s2.bitsFree := by
      rw [hs2]
      simp only []
      omega
    have hsl : (1 : Nat) <<< (s2.bitsFree - 1) = 1 * 2 ^ (s2.bitsFree - 1) :=
      Nat.shiftLeft_eq 1 _
    have hxlt : (1 : Nat) * 2 ^ (s2.bitsFree - 1) < 2 ^ s2.bitsFree := by
      rw [one_mul]
      exact Nat.pow_lt_pow_right (by norm_num) (by omega)
    have hor : (s2.buffer ||| 1 <<< (s2.bitsFree - 1)) % 2 ^ D =
        s2.buffer + 1 * 2 ^ (s2.bitsFree - 1) := by
      rw [hsl]
      exact or_write hInv2.2.2.1 hInv2.2.1 hInv2.1 hxlt
    rw [hor]
    obtain ⟨hInv3, hbits3⟩ :=
      encBits_write s2 hInv2 1 1 (by norm_num) hbf2
    have hb1 : bitsOfNat 1 1 = [true] := by decide
    obtain ⟨hInv4, hbits4⟩ :=
      dataLoop_spec hD hDW (2 * W + 3) W (u + 2 ^ k - 2 ^ W)
        ⟨s2.out, s2.buffer + 1 * 2 ^ (s2.bitsFree - 1), s2.bitsFree - 1⟩ hInv3
        hlt2 le_rfl (by split <;> omega)
    refine ⟨hInv4, ?_⟩
    rw [hbits4, hbits3, hbits2, hbits']
    rw [codewordBits, if_neg hov, hb1, hdata]
    simp only [List.append_assoc, List.singleton_append]
    congr 1
    rw [← List.append_assoc, ← List.replicate_add]
    congr 2
    omega

theorem mul_pow_mod {x s D : Nat} (h : s ≤ D) :
    (x * 2 ^ (D - s)) % 2 ^ D = x % 2 ^ s * 2 ^ (D - s) := by
  have hd : 2 ^ D = 2 ^ s * 2 ^ (D - s) := by
    rw [← pow_add]
    congr 1
    omega
  rw [hd, Nat.mul_mod_mul_right]

theorem codewordBits_eq_alt {W k u : Nat} (hk : k < W) (hu : u < 2 ^ W) :
    codewordBits W k u =
      List.replicate (bit_width (u + 2 ^ k) - (k + 1)) false ++
        bitsOfNat (bit_width (u + 2 ^ k)) (u + 2 ^ k) := by
  unfold codewordBits
  by_cases hov : u + 2 ^ k < 2 ^ W
  · rw [if_pos hov]
  · rw [if_neg hov]
    have hkW : 2 ^ k < 2 ^ W := Nat.pow_lt_pow_right (by norm_num) hk
    have h1 : 2 ^ W ≤ u + 2 ^ k := by omega
    have h2 : u + 2 ^ k < 2 ^ (W + 1) := by
      rw [pow_succ]
      omega
    have h3 : bit_width (u + 2 ^ k) = W + 1 := by
      have ha := bit_width_le_iff.mpr h2
      have hb := lt_bit_width_iff.mpr h1
      omega
    rw [h3, bitsOfNat_top h1 h2, ← bitsOfNat_mod_self W (u + 2 ^ k)]
    have h4 : W + 1 - (k + 1) = W - k := by omega
    rw [h4]

theorem push2_step {D : Nat} (hD : 0 < D) (dbw data : Nat) (s2 : EncState)
    (hInv2 : EncInv D s2) (hbf2 : 1 ≤ s2.bitsFree) (hdata : data < 2 ^ dbw)
    (hdbw : dbw ≤ D) :
    EncInv D (if dbw ≥ s2.bitsFree then
        (⟨s2.out ++ [(s2.buffer ||| data >>> (dbw - s2.bitsFree)) % 2 ^ D],
          (data <<< (D - (dbw - s2.bitsFree))) % 2 ^ D,
          D - (dbw - s2.bitsFree)⟩ : EncState)
      else
        ⟨s2.out, (s2.buffer ||| data <<< (s2.bitsFree - dbw)) % 2 ^ D,
          s2.bitsFree - dbw⟩) ∧
      encBits D (if dbw ≥ s2.bitsFree then
        (⟨s2.out ++ [(s2.buffer ||| data >>> (dbw - s2.bitsFree)) % 2 ^ D],
          (data <<< (D - (dbw - s2.bitsFree))) % 2 ^ D,
          D - (dbw - s2.bitsFree)⟩ : EncState)
      else
        ⟨s2.out, (s2.buffer ||| data <<< (s2.bitsFree - dbw)) % 2 ^ D,
          s2.bitsFree - dbw⟩) = encBits D s2 ++ bitsOfNat dbw data := by
  by_cases hsp : dbw ≥ s2.bitsFree
  · rw [if_pos hsp]
    have hsum : (dbw - s2.bitsFree) + s2.bitsFree = dbw := by omega
    have hdivlt : data >>> (dbw - s2.bitsFree) < 2 ^ s2.bitsFree := by
      rw [Nat.shiftRight_eq_div_pow,
        Nat.div_lt_iff_lt_mul (Nat.pos_pow_of_pos _ (by norm_num)), ← pow_add]
      have he : s2.bitsFree + (dbw - s2.bitsFree) = dbw := by omega
      rw [he]
      exact hdata
    have hor : (s2.buffer ||| data >>> (dbw - s2.bitsFree)) % 2 ^ D =
        s2.buffer + data >>> (dbw - s2.bitsFree) :=
      or_write hInv2.2.2.1 hInv2.2.1 hInv2.1 hdivlt
    have hbuf2 : (data <<< (D - (dbw - s2.bitsFree))) % 2 ^ D =
        data % 2 ^ (dbw - s2.bitsFree) * 2 ^ (D - (dbw - s2.bitsFree)) := by
      rw [Nat.shiftLeft_eq]
      exact mul_pow_mod (by omega)
    rw [hor, hbuf2]
    obtain ⟨hInv3, hbits3⟩ :=
      encBits_write s2 hInv2 s2.bitsFree (data >>> (dbw - s2.bitsFree)) hdivlt le_rfl
    rw [Nat.sub_self, pow_zero, Nat.mul_one] at hInv3 hbits3
    set t1 : EncState :=
      ⟨s2.out, s2.buffer + data >>> (dbw - s2.bitsFree), 0⟩ with ht1
    have hemitbits := encBits_emit t1 hInv3
    have hemitinv := EncInv_emit t1 hInv3
    obtain ⟨hInv5, hbits5⟩ :=
      encBits_write ⟨t1.out ++ [t1.buffer], 0, D⟩ hemitinv (dbw - s2.bitsFree)
        (data % 2 ^ (dbw - s2.bitsFree))
        (Nat.mod_lt _ (Nat.pos_pow_of_pos _ (by norm_num)))
        (show dbw - s2.bitsFree ≤ D by omega)
    rw [show (⟨t1.out ++ [t1.buffer], 0, D⟩ : EncState).bitsFree = D from rfl] at hInv5 hbits5
    rw [show (⟨t1.out ++ [t1.buffer], 0, D⟩ : EncState).out = t1.out ++ [t1.buffer] from rfl]
      at hInv5 hbits5
    rw [show (⟨t1.out ++ [t1.buffer], 0, D⟩ : EncState).buffer = 0 from rfl] at hInv5 hbits5
    rw [Nat.zero_add] at hInv5 hbits5
    constructor
    · exact hInv5
    · rw [hbits5, hemitbits, hbits3]
      rw [ht1]
      simp only [List.append_assoc, List.replicate, List.append_nil]
      congr 1
      conv_rhs => rw [← hsum]
      have hsum2 : s2.bitsFree + (dbw - s2.bitsFree) = dbw := by omega
      conv_rhs => rw [show dbw - s2.bitsFree + s2.bitsFree = s2.bitsFree + (dbw - s2.bitsFree) by omega, bitsOfNat_add]
      rw [bitsOfNat_mod_self]
  · rw [if_neg hsp]
    have hlt : dbw < s2.bitsFree := by omega
    have hxlt : data <<< (s2.bitsFree - dbw) < 2 ^ s2.bitsFree := by
      rw [Nat.shiftLeft_eq]
      calc data * 2 ^ (s2.bitsFree - dbw)
          < 2 ^ dbw * 2 ^ (s2.bitsFree - dbw) :=
            (Nat.mul_lt_mul_right (Nat.pos_pow_of_pos _ (by norm_num))).mpr hdata
        _ = 2 ^ s2.bitsFree := by
            rw [← pow_add]
            congr 1
            omega
    have hor : (s2.buffer ||| data <<< (s2.bitsFree - dbw)) % 2 ^ D =
        s2.buffer + data * 2 ^ (s2.bitsFree - dbw) := by
      rw [or_write hInv2.2.2.1 hInv2.2.1 hInv2.1 hxlt, Nat.shiftLeft_eq]
    rw [hor]
    exact encBits_write s2 hInv2 dbw data hdata (by omega)

theorem push2_step2 {D : Nat} (hD : 0 < D) (dbw data : Nat) (o : List Nat)
    (b f : Nat) (hInv2 : EncInv D ⟨o, b, f⟩) (hbf2 : 1 ≤ f)
    (hdata : data < 2 ^ dbw) (hdbw : dbw ≤ D) :
    EncInv D (if dbw ≥ f then
        (⟨o ++ [(b ||| data >>> (dbw - f)) % 2 ^ D],
          (data <<< (D - (dbw - f))) % 2 ^ D, D - (dbw - f)⟩ : EncState)
      else ⟨o, (b ||| data <<< (f - dbw)) % 2 ^ D, f - dbw⟩) ∧
      encBits D (if dbw ≥ f then
        (⟨o ++ [(b ||| data >>> (dbw - f)) % 2 ^ D],
          (data <<< (D - (dbw - f))) % 2 ^ D, D - (dbw - f)⟩ : EncState)
      else ⟨o, (b ||| data <<< (f - dbw)) % 2 ^ D, f - dbw⟩) =
        encBits D ⟨o, b, f⟩ ++ bitsOfNat dbw data :=
  push2_step hD dbw data ⟨o, b, f⟩ hInv2 hbf2 hdata hdbw

theorem push2_bits {W D k u : Nat} (hW : 0 < W) (hWD : W < D) (hk : k < W)
    (hu : u < 2 ^ W) (s : EncState) (hInv : EncInv D s) :
    EncInv D (push2 W D k u s) ∧
      encBits D (push2 W D k u s) = encBits D s ++ codewordBits W k u := by
  have hD : 0 < D := by omega
  have hkW : 2 ^ k < 2 ^ W := Nat.pow_lt_pow_right (by norm_num) hk
  have hWD2 : 2 ^ (W + 1) ≤ 2 ^ D := Nat.pow_le_pow_right (by norm_num) (by omega)
  have hvW1 : u + 2 ^ k < 2 ^ (W + 1) := by
    rw [pow_succ]
    omega
  have hvD : u + 2 ^ k < 2 ^ D := by omega
  have hbase : (1 <<< k) % 2 ^ D = 2 ^ k := by
    rw [Nat.shiftLeft_eq, one_mul]
    exact Nat.mod_eq_of_lt (by omega)
  simp only [push2, hbase, Nat.mod_eq_of_lt hvD]
  set v := u + 2 ^ k with hv
  have hvpos : v ≠ 0 := by
    rw [hv]
    have := Nat.pos_pow_of_pos k (show 0 < 2 by norm_num)
    omega
  have hdbwk : k + 1 ≤ bit_width v := by
    have := lt_bit_width_iff (n := v) (b := k)
    omega
  have hdbwW : bit_width v ≤ W + 1 := bit_width_le_iff.mpr hvW1
  set dbw := bit_width v with hdbw
  set zeros := dbw - (k + 1) with hzeros
  have hzW : zeros ≤ W - k := by omega
  rw [codewordBits_eq_alt hk hu, ← hv, ← hdbw, ← hzeros]
  by_cases hzc : zeros ≥ s.bitsFree
  · rw [if_pos hzc]
    dsimp only
    have hsub := encBits_subFree ⟨s.out ++ [s.buffer], 0, D⟩ (EncInv_emit s hInv)
      (zeros - s.bitsFree) (by dsimp only; omega)
    dsimp only at hsub
    obtain ⟨hInv2, hbits2⟩ := hsub
    have hstep := push2_step2 hD dbw v (s.out ++ [s.buffer]) 0
      (D - (zeros - s.bitsFree)) hInv2 (by omega) (lt_two_pow_bit_width v) (by omega)
    refine ⟨hstep.1, ?_⟩
    rw [hstep.2, hbits2, encBits_emit s hInv]
    simp only [List.append_assoc]
    congr 1
    rw [← List.append_assoc, ← List.replicate_add]
    congr 2
    omega
  · rw [if_neg hzc]
    dsimp only
    have hsub := encBits_subFree s hInv zeros (by omega)
    obtain ⟨hInv2, hbits2⟩ := hsub
    have hstep := push2_step2 hD dbw v s.out s.buffer (s.bitsFree - zeros)
      hInv2 (by omega) (lt_two_pow_bit_width v) (by omega)
    refine ⟨hstep.1, ?_⟩
    rw [hstep.2, hbits2]
    simp [List.append_assoc]

theorem pushU_bits {W D k u : Nat} (hW : 0 < W) (hD : 0 < D) (hk : k < W)
    (hu : u < 2 ^ W) (s : EncState) (hInv : EncInv D s) :
    EncInv D (pushU W D k u s) ∧
      encBits D (pushU W D k u s) = encBits D s ++ codewordBits W k u := by
  unfold pushU
  by_cases h : D ≤ W
  · rw [if_pos h]
    exact push1_bits hD h hk hu s hInv
  · rw [if_neg h]
    exact push2_bits hW (by omega) hk hu s hInv

theorem push_switch_min (W D u k : Nat) :
    ∀ left K s, K + left = W - 1 → K ≤ k →
      push_switch W D u k K left s = pushU W D (min k (W - 1)) u s := by
  intro left
  induction left with
  | zero =>
    intro K s hKl hKk
    simp only [push_switch]
    have hm : min k (W - 1) = W - 1 := by omega
    rw [hm]
  | succ left ih =>
    intro K s hKl hKk
    simp only [push_switch]
    by_cases hk : k = K
    · rw [if_pos hk]
      have hm : min k (W - 1) = K := by omega
      rw [hm]
    · rw [if_neg hk]
      exact ih (K + 1) s (by omega) (by omega)

theorem encPush_min (W D u k : Nat) (s : EncState) :
    encPush W D u k s = pushU W D (min k (W - 1)) u s :=
  push_switch_min W D u k (W - 1) 0 s (by omega) (Nat.zero_le k)

theorem pull_switch_min (D W maxOut k : Nat) :
    ∀ left K s, K + left = W - 1 → K ≤ k →
      pull_switch D W maxOut k K left s = pullCore D W maxOut (min k (W - 1)) s := by
  intro left
  induction left with
  | zero =>
    intro K s hKl hKk
    simp only [pull_switch]
    have hm : min k (W - 1) = W - 1 := by omega
    rw [hm]
  | succ left ih =>
    intro K s hKl hKk
    simp only [pull_switch]
    by_cases hk : k = K
    · rw [if_pos hk]
      have hm : min k (W - 1) = K := by omega
      rw [hm]
    · rw [if_neg hk]
      exact ih (K + 1) s (by omega) (by omega)

theorem decPull_min (D W maxOut k : Nat) (s : DecState) :
    decPull D W maxOut k s = pullCore D W maxOut (min k (W - 1)) s :=
  pull_switch_min D W maxOut k (W - 1) 0 s (by omega) (Nat.zero_le k)

theorem encPush_bits {W D k u : Nat} (hW : 0 < W) (hD : 0 < D) (hu : u < 2 ^ W)
    (s : EncState) (hInv : EncInv D s) :
    EncInv D (encPush W D u k s) ∧
      encBits D (encPush W D u k s) =
        encBits D s ++ codewordBits W (min k (W - 1)) u := by
  rw [encPush_min]
  exact pushU_bits hW hD (by omega) hu s hInv

theorem encInit_inv {D : Nat} (hD : 0 < D) : EncInv D (encInit D) := by
  refine ⟨le_rfl, Nat.pos_pow_of_pos _ (by norm_num), by simp [encInit], by simp [encInit]⟩

theorem encBits_init (D : Nat) : encBits D (encInit D) = [] := by
  simp [encBits, encInit, Nat.sub_self, bitsOfNat]

theorem flatMap_bits_length (D : Nat) (l : List Nat) :
    (l.flatMap (bitsOfNat D)).length = D * l.length := by
  induction l with
  | nil => simp
  | cons c l ih =>
    simp [List.flatMap_cons, ih, Nat.mul_succ, Nat.mul_add]
    omega

theorem encBits_length {D : Nat} (s : EncState) (hbf : s.bitsFree ≤ D) :
    (encBits D s).length = D * s.out.length + (D - s.bitsFree) := by
  rw [encBits, List.length_append, flatMap_bits_length, bitsOfNat_length]

theorem encode_foldl_bits {W D k : Nat} (hW : 0 < W) (hD : 0 < D) :
    ∀ (xs : List Nat) (s : EncState), EncInv D s → (∀ u ∈ xs, u < 2 ^ W) →
    EncInv D (xs.foldl (fun s u => encPush W D u k s) s) ∧
      encBits D (xs.foldl (fun s u => encPush W D u k s) s) =
        encBits D s ++ xs.flatMap (codewordBits W (min k (W - 1))) := by
  intro xs
  induction xs with
  | nil =>
    intro s hInv _
    simpa using hInv
  | cons u xs ih =>
    intro s hInv hxs
    obtain ⟨hInv1, hbits1⟩ := encPush_bits (k := k) hW hD (hxs u (by simp)) s hInv
    obtain ⟨hInv2, hbits2⟩ := ih (encPush W D u k s) hInv1
      (fun x hx => hxs x (by simp [hx]))
    rw [List.foldl_cons]
    refine ⟨hInv2, ?_⟩
    rw [hbits2, hbits1, List.flatMap_cons, List.append_assoc]

theorem flatMap_emit {D : Nat} (s : EncState) (hInv : EncInv D s) :
    (s.out ++ [s.buffer]).flatMap (bitsOfNat D) =
      encBits D s ++ List.replicate s.bitsFree false := by
  have he := encBits_emit s hInv
  have h2 : encBits D ⟨s.out ++ [s.buffer], 0, D⟩ =
      (s.out ++ [s.buffer]).flatMap (bitsOfNat D) := by
    rw [encBits]
    dsimp only
    rw [Nat.sub_self]
    simp [bitsOfNat]
  rw [← h2, he]

theorem encBits_eq_flatMap {D : Nat} (s : EncState) (h : s.bitsFree = D) :
    encBits D s = s.out.flatMap (bitsOfNat D) := by
  rw [encBits, h, Nat.sub_self]
  simp [bitsOfNat]

theorem ceil_div_exact {D n r : Nat} (hD : 0 < D) (hr : r ≤ D) :
    (D * n + r + D - 1) / D = if r = 0 then n else n + 1 := by
  by_cases h0 : r = 0
  · rw [if_pos h0, h0]
    have h1 : D * n + 0 + D - 1 = D * n + (D - 1) := by omega
    rw [h1, Nat.mul_add_div hD, Nat.div_eq_of_lt (by omega), Nat.add_zero]
  · rw [if_neg h0]
    have hms : D * (n + 1) = D * n + D := by ring
    have h1 : D * n + r + D - 1 = D * (n + 1) + (r - 1) := by
      rw [hms]
      omega
    rw [h1, Nat.mul_add_div hD, Nat.div_eq_of_lt (by omega), Nat.add_zero]

theorem encode_u_bits {W D k : Nat} (hW : 0 < W) (hD : 0 < D) (hk : k < W)
    (xs : List Nat) (hxs : ∀ u ∈ xs, u < 2 ^ W) :
    ∃ p, p < D ∧
      (encode_u W D k xs).flatMap (bitsOfNat D) =
        xs.flatMap (codewordBits W k) ++ List.replicate p false ∧
      (∀ c ∈ encode_u W D k xs, c < 2 ^ D) ∧
      (encode_u W D k xs).length =
        ((xs.flatMap (codewordBits W k)).length + D - 1) / D := by
  have hmin : min k (W - 1) = k := by omega
  obtain ⟨hInv, hbits⟩ :=
    encode_foldl_bits (k := k) hW hD xs (encInit D) (encInit_inv hD) hxs
  rw [encBits_init, List.nil_append, hmin] at hbits
  set sf := xs.foldl (fun s u => encPush W D u k s) (encInit D) with hsf
  have hlen : (xs.flatMap (codewordBits W k)).length =
      D * sf.out.length + (D - sf.bitsFree) := by
    rw [← hbits]
    exact encBits_length sf hInv.1
  unfold encode_u
  rw [← hsf]
  unfold flush
  by_cases hbf : sf.bitsFree < D
  · rw [if_pos hbf]
    refine ⟨sf.bitsFree, hbf, ?_, ?_, ?_⟩
    · dsimp only
      rw [flatMap_emit sf hInv, hbits]
    · dsimp only
      exact (EncInv_emit sf hInv).2.2.2
    · dsimp only
      rw [hlen, List.length_append, List.length_cons, List.length_nil]
      rw [ceil_div_exact hD (by omega), if_neg (by omega)]
  · rw [if_neg hbf]
    have hbfD : sf.bitsFree = D := by
      have := hInv.1
      omega
    refine ⟨0, hD, ?_, hInv.2.2.2, ?_⟩
    · rw [← encBits_eq_flatMap sf hbfD, hbits]
      simp
    · rw [hlen, hbfD, Nat.sub_self, Nat.add_zero]
      have h1 : D * sf.out.length + D - 1 = D * sf.out.length + (D - 1) := by omega
      rw [h1, Nat.mul_add_div hD, Nat.div_eq_of_lt (by omega), Nat.add_zero]

theorem bit_width_zero : bit_width 0 = 0 := rfl

theorem bit_width_pos {n : Nat} (h : n ≠ 0) : 0 < bit_width n :=
  lt_bit_width_iff.mpr (by omega)

theorem bitsOfNat_bit_width {n : Nat} (h : n ≠ 0) :
    bitsOfNat (bit_width n) n = true :: bitsOfNat (bit_width n - 1) n := by
  have h1 : 0 < bit_width n := bit_width_pos h
  have h2 : 2 ^ (bit_width n - 1) ≤ n := two_pow_bit_width_pred_le h
  have h3 : n < 2 ^ (bit_width n - 1 + 1) := by
    have h4 := lt_two_pow_bit_width n
    have he : bit_width n - 1 + 1 = bit_width n := by omega
    rw [he]
    exact h4
  have he : bit_width n = (bit_width n - 1) + 1 := by omega
  conv_lhs => rw [he]
  exact bitsOfNat_top h2 h3

theorem replicate_false_cancel {a : Nat} :
    ∀ {z : Nat} {l r : List Bool},
    List.replicate a false ++ l = List.replicate z false ++ true :: r →
    a ≤ z ∧ l = List.replicate (z - a) false ++ true :: r := by
  induction a with
  | zero =>
    intro z l r h
    simpa using h
  | succ a ih =>
    intro z l r h
    cases z with
    | zero =>
      rw [List.replicate_succ, List.replicate_zero] at h
      simp at h
    | succ z =>
      rw [List.replicate_succ, List.replicate_succ, List.cons_append,
        List.cons_append] at h
      have h2 := (List.cons.injEq _ _ _ _).mp h
      obtain ⟨h3, h4⟩ := ih h2.2
      exact ⟨by omega, by simpa [Nat.succ_sub_succ] using h4⟩

theorem replicate_true_eq {a z : Nat} {l r : List Bool}
    (h : List.replicate a false ++ true :: l = List.replicate z false ++ true :: r) :
    a = z ∧ l = r := by
  obtain ⟨h1, h2⟩ := replicate_false_cancel h
  cases hz : z - a with
  | zero =>
    rw [hz, List.replicate_zero, List.nil_append] at h2
    have h3 := (List.cons.injEq _ _ _ _).mp h2
    exact ⟨by omega, h3.2⟩
  | succ m =>
    rw [hz, List.replicate_succ, List.cons_append] at h2
    have h3 := (List.cons.injEq _ _ _ _).mp h2
    simp at h3

theorem checkData_none_iff {D : Nat} {s : DecState} :
    checkData D s = none ↔ s.bitsRem = 0 ∧ s.input = [] := by
  unfold checkData
  by_cases h : s.bitsRem ≠ 0
  · rw [if_pos h]
    constructor
    · intro hh
      simp at hh
    · intro hh
      exact absurd hh.1 h
  · rw [if_neg h]
    cases hinp : s.input with
    | nil => simp [hinp]; omega
    | cons c rest => simp [hinp]

theorem checkData_some {D : Nat} {s s1 : DecState} (hD : 0 < D) (hInv : DecInv D s)
    (h : checkData D s = some s1) :
    DecInv D s1 ∧ decBits D s1 = decBits D s ∧ 0 < s1.bitsRem ∧
      s1.data < 2 ^ s1.bitsRem := by
  unfold checkData at h
  by_cases hbr : s.bitsRem ≠ 0
  · rw [if_pos hbr] at h
    injection h with h
    subst h
    refine ⟨hInv, rfl, by omega, ?_⟩
    rcases hInv.2.1 with h0 | h0
    · omega
    · exact h0
  · rw [if_neg hbr] at h
    have hbr0 : s.bitsRem = 0 := by omega
    cases hinp : s.input with
    | nil =>
      rw [hinp] at h
      simp at h
    | cons c rest =>
      rw [hinp] at h
      injection h with h
      subst h
      have hc : c < 2 ^ D := hInv.2.2 c (by rw [hinp]; simp)
      refine ⟨⟨le_rfl, Or.inr hc, fun x hx => hInv.2.2 x (by rw [hinp]; simp [hx])⟩,
        ?_, hD, hc⟩
      rw [decBits, decBits, hbr0, hinp]
      simp [bitsOfNat, List.flatMap_cons]

theorem scan_end_step {D : Nat} {br data : Nat} {inp : List Nat} {z : Nat}
    {r : List Bool} (hdata : data < 2 ^ br) (hne : data ≠ 0)
    (hbits : decBits D ⟨inp, br, data⟩ = List.replicate z false ++ true :: r) :
    br - bit_width data = z ∧
      decBits D ⟨inp, bit_width data, data⟩ = true :: r := by
  have hbw : bit_width data ≤ br := bit_width_le_iff.mpr hdata
  have hsplit : bitsOfNat br data =
      List.replicate (br - bit_width data) false ++
        bitsOfNat (bit_width data) data :=
    bitsOfNat_of_lt (lt_two_pow_bit_width data) hbw
  rw [decBits] at hbits
  dsimp only at hbits
  rw [hsplit, bitsOfNat_bit_width hne, List.append_assoc, List.cons_append] at hbits
  obtain ⟨h1, h2⟩ := replicate_true_eq hbits
  refine ⟨h1, ?_⟩
  rw [decBits]
  dsimp only
  rw [bitsOfNat_bit_width hne, List.cons_append, h2]

theorem scanZeros_pop {D : Nat} (hD : 0 < D) :
    ∀ (inp : List Nat) (fuel zeros z : Nat) (r : List Bool) (data0 : Nat),
    DecInv D ⟨inp, 0, data0⟩ →
    decBits D ⟨inp, 0, data0⟩ = List.replicate z false ++ true :: r →
    inp.length + 1 ≤ fuel →
    ∃ s', scanZeros D fuel zeros ⟨inp, 0, data0⟩ = (some (zeros + z), s') ∧
      DecInv D s' ∧ decBits D s' = true :: r ∧ s'.data ≠ 0 ∧
      s'.bitsRem = bit_width s'.data := by
  intro inp
  induction inp with
  | nil =>
    intro fuel zeros z r data0 hInv hbits hfuel
    rw [decBits] at hbits
    dsimp only at hbits
    simp [bitsOfNat] at hbits
  | cons c rest ih =>
    intro fuel zeros z r data0 hInv hbits hfuel
    cases fuel with
    | zero => simp at hfuel
    | succ fuel =>
      simp only [scanZeros]
      have hcd : checkData D ⟨c :: rest, 0, data0⟩ = some ⟨rest, D, c⟩ := by
        unfold checkData
        simp
      rw [hcd]
      dsimp only
      have hc : c < 2 ^ D := hInv.2.2 c (by simp)
      have hbits1 : decBits D ⟨rest, D, c⟩ =
          List.replicate z false ++ true :: r := by
        rw [decBits] at hbits ⊢
        dsimp only at hbits ⊢
        rw [List.flatMap_cons] at hbits
        simpa [bitsOfNat] using hbits
      by_cases hc0 : c = 0
      · subst hc0
        rw [if_pos (rfl : (0 : Nat) = 0)]
        rw [bit_width_zero, Nat.sub_zero]
        have hbits2 : decBits D ⟨rest, 0, 0⟩ =
            rest.flatMap (bitsOfNat D) := by
          rw [decBits]
          dsimp only
          simp [bitsOfNat]
        have hbits0 : bitsOfNat D (0 : Nat) ++ rest.flatMap (bitsOfNat D) =
            List.replicate z false ++ true :: r := by
          rw [decBits] at hbits1
          dsimp only at hbits1
          exact hbits1
        rw [bitsOfNat_zero_val] at hbits0
        obtain ⟨hDz, hrest⟩ := replicate_false_cancel hbits0
        have hInv2 : DecInv D ⟨rest, 0, 0⟩ :=
          ⟨Nat.zero_le D, Or.inl rfl, fun x hx => hInv.2.2 x (by simp [hx])⟩
        obtain ⟨s', heq, h1, h2, h3, h4⟩ :=
          ih fuel (zeros + D) (z - D) r 0 hInv2 (by rw [hbits2]; exact hrest)
            (by simp at hfuel; omega)
        refine ⟨s', ?_, h1, h2, h3, h4⟩
        rw [heq]
        congr 2
        omega
      · have hend := scan_end_step (D := D) hc hc0 hbits1
        rw [if_neg hc0]
        refine ⟨⟨rest, bit_width c, c⟩, ?_, ?_, hend.2, hc0, rfl⟩
        · rw [hend.1]
        · exact ⟨le_trans (bit_width_le_iff.mpr hc) le_rfl,
            Or.inr (lt_two_pow_bit_width c),
            fun x hx => hInv.2.2 x (by simp [hx])⟩

theorem scanZeros_found {D : Nat} (hD : 0 < D) (s : DecState) (hInv : DecInv D s)
    {z : Nat} {r : List Bool}
    (hbits : decBits D s = List.replicate z false ++ true :: r)
    (fuel zeros : Nat) (hfuel : s.input.length + 2 ≤ fuel) :
    ∃ s', scanZeros D fuel zeros s = (some (zeros + z), s') ∧ DecInv D s' ∧
      decBits D s' = true :: r ∧ s'.data ≠ 0 ∧ s'.bitsRem = bit_width s'.data := by
  rcases s with ⟨inp, br, data⟩
  by_cases hbr : br = 0
  · subst hbr
    exact scanZeros_pop hD inp fuel zeros z r data hInv hbits (by simp at hfuel ⊢; omega)
  · cases fuel with
    | zero => simp at hfuel
    | succ fuel =>
      simp only [scanZeros]
      have hcd : checkData D ⟨inp, br, data⟩ = some ⟨inp, br, data⟩ := by
        unfold checkData
        rw [if_pos hbr]
      rw [hcd]
      dsimp only
      have hdata : data < 2 ^ br := by
        rcases hInv.2.1 with h | h
        · exact absurd h hbr
        · exact h
      by_cases hd0 : data = 0
      · subst hd0
        rw [if_pos (rfl : (0 : Nat) = 0)]
        rw [bit_width_zero, Nat.sub_zero]
        have hbits0 : List.replicate br false ++ inp.flatMap (bitsOfNat D) =
            List.replicate z false ++ true :: r := by
          rw [decBits] at hbits
          dsimp only at hbits
          rwa [bitsOfNat_zero_val] at hbits
        obtain ⟨hbz, hrest⟩ := replicate_false_cancel hbits0
        have hInv2 : DecInv D ⟨inp, 0, 0⟩ :=
          ⟨Nat.zero_le D, Or.inl rfl, hInv.2.2⟩
        obtain ⟨s', heq, h1, h2, h3, h4⟩ :=
          scanZeros_pop hD inp fuel (zeros + br) (z - br) r 0 hInv2
            (by rw [decBits]; dsimp only; simpa [bitsOfNat] using hrest)
            (by simp at hfuel; omega)
        refine ⟨s', ?_, h1, h2, h3, h4⟩
        rw [heq]
        congr 2
        omega
      · have hend := scan_end_step (D := D) hdata hd0 hbits
        rw [if_neg hd0]
        refine ⟨⟨inp, bit_width data, data⟩, ?_, ?_, hend.2, hd0, rfl⟩
        · rw [hend.1]
        · exact ⟨le_trans (bit_width_le_iff.mpr hdata) hInv.1,
            Or.inr (lt_two_pow_bit_width data), hInv.2.2⟩

theorem replicate_no_true {a : Nat} :
    ∀ {p : Nat} {l : List Bool},
    List.replicate a false ++ true :: l ≠ List.replicate p false := by
  induction a with
  | zero =>
    intro p l h
    cases p with
    | zero => simp at h
    | succ p =>
      rw [List.replicate_succ] at h
      simp at h
  | succ a ih =>
    intro p l h
    cases p with
    | zero => simp at h
    | succ p =>
      rw [List.replicate_succ, List.replicate_succ, List.cons_append] at h
      have h2 := (List.cons.injEq _ _ _ _).mp h
      exact ih h2.2

theorem natOfBits_replicate_false (n : Nat) :
    natOfBits (List.replicate n false) = 0 := by
  rw [← bitsOfNat_zero_val, natOfBits_bitsOfNat]
  simp

theorem replicate_false_split {a p : Nat} {l : List Bool}
    (h : List.replicate a false ++ l = List.replicate p false) (ha : a ≤ p) :
    l = List.replicate (p - a) false := by
  have h2 : List.replicate p false =
      List.replicate a false ++ List.replicate (p - a) false := by
    rw [← List.replicate_add]
    congr 1
    omega
  rw [h2] at h
  exact List.append_cancel_left h

theorem scanZeros_allzero_pop {D : Nat} (hD : 0 < D) :
    ∀ (inp : List Nat) (fuel zeros p : Nat) (data0 : Nat),
    DecInv D ⟨inp, 0, data0⟩ →
    decBits D ⟨inp, 0, data0⟩ = List.replicate p false →
    inp.length + 1 ≤ fuel →
    ∃ s', scanZeros D fuel zeros ⟨inp, 0, data0⟩ = (none, s') ∧
      s'.bitsRem = 0 ∧ s'.input = [] := by
  intro inp
  induction inp with
  | nil =>
    intro fuel zeros p data0 hInv hbits hfuel
    cases fuel with
    | zero => simp at hfuel
    | succ fuel =>
      simp only [scanZeros]
      have hcd : checkData D ⟨[], 0, data0⟩ = none := by
        unfold checkData
        simp
      rw [hcd]
      exact ⟨⟨[], 0, data0⟩, rfl, rfl, rfl⟩
  | cons c rest ih =>
    intro fuel zeros p data0 hInv hbits hfuel
    cases fuel with
    | zero => simp at hfuel
    | succ fuel =>
      simp only [scanZeros]
      have hcd : checkData D ⟨c :: rest, 0, data0⟩ = some ⟨rest, D, c⟩ := by
        unfold checkData
        simp
      rw [hcd]
      dsimp only
      have hc : c < 2 ^ D := hInv.2.2 c (by simp)
      have hbits1 : bitsOfNat D c ++ rest.flatMap (bitsOfNat D) =
          List.replicate p false := by
        rw [decBits] at hbits
        dsimp only at hbits
        rw [List.flatMap_cons] at hbits
        simpa [bitsOfNat] using hbits
      have hc0 : c = 0 := by
        by_contra hne
        rw [bitsOfNat_of_lt (lt_two_pow_bit_width c) (bit_width_le_iff.mpr hc),
          bitsOfNat_bit_width hne, List.append_assoc, List.cons_append] at hbits1
        exact replicate_no_true hbits1
      subst hc0
      rw [if_pos (rfl : (0 : Nat) = 0)]
      rw [bit_width_zero]
      have hDp : D ≤ p := by
        have hlen := congrArg List.length hbits1
        simp [flatMap_bits_length] at hlen
        omega
      have hrest : rest.flatMap (bitsOfNat D) = List.replicate (p - D) false := by
        rw [bitsOfNat_zero_val] at hbits1
        exact replicate_false_split hbits1 hDp
      have hInv2 : DecInv D ⟨rest, 0, 0⟩ :=
        ⟨Nat.zero_le D, Or.inl rfl, fun x hx => hInv.2.2 x (by simp [hx])⟩
      obtain ⟨s', heq, h1, h2⟩ :=
        ih fuel (zeros + (D - 0)) (p - D) 0 hInv2
          (by rw [decBits]; dsimp only; simpa [bitsOfNat] using hrest)
          (by simp at hfuel; omega)
      exact ⟨s', heq, h1, h2⟩

theorem scanZeros_allzero {D : Nat} (hD : 0 < D) (s : DecState) (hInv : DecInv D s)
    {p : Nat} (hbits : decBits D s = List.replicate p false)
    (fuel zeros : Nat) (hfuel : s.input.length + 2 ≤ fuel) :
    ∃ s', scanZeros D fuel zeros s = (none, s') ∧
      s'.bitsRem = 0 ∧ s'.input = [] := by
  rcases s with ⟨inp, br, data⟩
  by_cases hbr : br = 0
  · subst hbr
    exact scanZeros_allzero_pop hD inp fuel zeros p data hInv hbits
      (by simp at hfuel ⊢; omega)
  · cases fuel with
    | zero => simp at hfuel
    | succ fuel =>
      simp only [scanZeros]
      have hcd : checkData D ⟨inp, br, data⟩ = some ⟨inp, br, data⟩ := by
        unfold checkData
        rw [if_pos hbr]
      rw [hcd]
      dsimp only
      have hdata : data < 2 ^ br := by
        rcases hInv.2.1 with h | h
        · exact absurd h hbr
        · exact h
      have hd0 : data = 0 := by
        by_contra hne
        have hsplit : bitsOfNat br data =
            List.replicate (br - bit_width data) false ++
              bitsOfNat (bit_width data) data :=
          bitsOfNat_of_lt (lt_two_pow_bit_width data) (bit_width_le_iff.mpr hdata)
        rw [decBits] at hbits
        dsimp only at hbits
        rw [hsplit, bitsOfNat_bit_width hne, List.append_assoc,
          List.cons_append] at hbits
        exact replicate_no_true hbits
      subst hd0
      rw [if_pos (rfl : (0 : Nat) = 0)]
      rw [bit_width_zero]
      have hbits0 : List.replicate br false ++ inp.flatMap (bitsOfNat D) =
          List.replicate p false := by
        rw [decBits] at hbits
        dsimp only at hbits
        rwa [bitsOfNat_zero_val] at hbits
      have hbp : br ≤ p := by
        have hlen := congrArg List.length hbits0
        simp [flatMap_bits_length] at hlen
        omega
      have hrest : inp.flatMap (bitsOfNat D) = List.replicate (p - br) false :=
        replicate_false_split hbits0 hbp
      have hInv2 : DecInv D ⟨inp, 0, 0⟩ :=
        ⟨Nat.zero_le D, Or.inl rfl, hInv.2.2⟩
      obtain ⟨s', heq, h1, h2⟩ :=
        scanZeros_allzero_pop hD inp fuel (zeros + (br - 0)) (p - br) 0 hInv2
          (by rw [decBits]; dsimp only; simpa [bitsOfNat] using hrest)
          (by simp at hfuel; omega)
      exact ⟨s', heq, h1, h2⟩

theorem shiftRight_eq_zero {x n : Nat} (h : x < 2 ^ n) : x >>> n = 0 := by
  rw [Nat.shiftRight_eq_div_pow]
  exact Nat.div_eq_of_lt h

theorem readBits_ok {D W : Nat} (hD : 0 < D) :
    ∀ fuel digits buffer (s : DecState) (mb r : List Bool),
    DecInv D s → (s.data < 2 ^ s.bitsRem ∨ (s.bitsRem = 0 ∧ 0 < digits)) →
    decBits D s = mb ++ r → mb.length = digits → digits ≤ W →
    buffer < 2 ^ W → buffer % 2 ^ digits = 0 → digits + 1 ≤ fuel →
    ∃ s', readBits D W fuel digits buffer s = (some (buffer + natOfBits mb), s') ∧
      DecInv D s' ∧ decBits D s' = r := by
  intro fuel
  induction fuel with
  | zero =>
    intro digits buffer s mb r _ _ _ _ _ _ _ h
    omega
  | succ fuel ih =>
    intro digits buffer s mb r hInv hsd hbits hmb hdW hbuf hlow hfuel
    simp only [readBits]
    by_cases hdig : digits ≠ 0
    case neg =>
      have hd0 : digits = 0 := by omega
      subst hd0
      rw [if_neg hdig]
      have hmb0 : mb = [] := List.length_eq_zero.mp hmb
      subst hmb0
      rw [List.nil_append] at hbits
      have hdata0 : s.data < 2 ^ s.bitsRem := by
        rcases hsd with h | h
        · exact h
        · omega
      by_cases hbr : 0 ≥ s.bitsRem
      · rw [if_pos hbr]
        dsimp only
        have hbr0 : s.bitsRem = 0 := by omega
        have hda : s.data = 0 := by
          rw [hbr0] at hdata0
          simpa using hdata0
        have hbuf' : (buffer ||| s.data <<< (0 - s.bitsRem)) % 2 ^ W = buffer := by
          rw [hda, Nat.zero_shiftLeft, Nat.or_zero]
          exact Nat.mod_eq_of_lt hbuf
        rw [if_neg (by omega : ¬0 - s.bitsRem ≠ 0), hbuf']
        refine ⟨⟨s.input, 0, s.data⟩, ?_, ?_, ?_⟩
        · rw [natOfBits]
          simp
        · exact ⟨Nat.zero_le D, Or.inl rfl, hInv.2.2⟩
        · have hse : (⟨s.input, 0, s.data⟩ : DecState) = s := by
            rw [← hbr0]
          rw [hse]
          exact hbits
      · rw [if_neg hbr]
        dsimp only
        have hbr1 : 0 < s.bitsRem := by omega
        have hbuf' : (buffer ||| s.data >>> (s.bitsRem - 0)) % 2 ^ W = buffer := by
          rw [Nat.sub_zero, shiftRight_eq_zero hdata0, Nat.or_zero]
          exact Nat.mod_eq_of_lt hbuf
        rw [if_neg (by omega : ¬(0 : Nat) ≠ 0), hbuf']
        have hdm : s.data &&& make_mask D (s.bitsRem - 0) = s.data := by
          rw [Nat.sub_zero, make_mask_eq hInv.1, Nat.and_pow_two_sub_one_eq_mod]
          exact Nat.mod_eq_of_lt hdata0
        rw [hdm, Nat.sub_zero]
        refine ⟨⟨s.input, s.bitsRem, s.data⟩, ?_, hInv, ?_⟩
        · rw [natOfBits]
          simp
        · exact hbits
    case pos =>
      rw [if_pos hdig]
      cases hcd : checkData D s with
      | none =>
        obtain ⟨hb0, hi0⟩ := checkData_none_iff.mp hcd
        rw [decBits, hb0, hi0] at hbits
        simp [bitsOfNat] at hbits
        have : mb = [] := by
          cases mb with
          | nil => rfl
          | cons b l => simp at hbits
        rw [this] at hmb
        simp at hmb
        omega
      | some s1 =>
        dsimp only
        obtain ⟨hInv1, hbits1, hbr1, hdata1⟩ := checkData_some hD hInv hcd
        rw [hbits] at hbits1
        by_cases hge : digits ≥ s1.bitsRem
        · rw [if_pos hge]
          dsimp only
          have hbrd : s1.bitsRem ≤ digits := hge
          set mb1 := mb.take s1.bitsRem with hmb1
          set mb2 := mb.drop s1.bitsRem with hmb2
          have hmbsplit : mb = mb1 ++ mb2 := (List.take_append_drop _ _).symm
          have hlen1 : mb1.length = s1.bitsRem := by
            rw [hmb1, List.length_take]
            omega
          have happ : bitsOfNat s1.bitsRem s1.data ++
              s1.input.flatMap (bitsOfNat D) = mb1 ++ (mb2 ++ r) := by
            rw [← List.append_assoc, ← hmbsplit]
            rw [decBits] at hbits1
            exact hbits1
          obtain ⟨hm1, hrest⟩ :=
            List.append_inj happ (by rw [bitsOfNat_length, hlen1])
          have hnat1 : natOfBits mb1 = s1.data := by
            rw [← hm1, natOfBits_bitsOfNat]
            exact Nat.mod_eq_of_lt hdata1
          have hxlt : s1.data <<< (digits - s1.bitsRem) < 2 ^ digits := by
            rw [Nat.shiftLeft_eq]
            calc s1.data * 2 ^ (digits - s1.bitsRem)
                < 2 ^ s1.bitsRem * 2 ^ (digits - s1.bitsRem) :=
                  (Nat.mul_lt_mul_right (Nat.pos_pow_of_pos _ (by norm_num))).mpr hdata1
              _ = 2 ^ digits := by
                  rw [← pow_add]
                  congr 1
                  omega
          have hor : (buffer ||| s1.data <<< (digits - s1.bitsRem)) % 2 ^ W =
              buffer + s1.data * 2 ^ (digits - s1.bitsRem) := by
            rw [or_write (b := digits) hlow hbuf hdW hxlt, Nat.shiftLeft_eq]
          rw [hor]
          have hlen2 : mb2.length = digits - s1.bitsRem := by
            rw [hmb2, List.length_drop, hmb]
          have hnat : buffer + s1.data * 2 ^ (digits - s1.bitsRem) + natOfBits mb2 =
              buffer + natOfBits mb := by
            rw [hmbsplit, natOfBits_append, hnat1, hlen2]
            ring
          have hxlt2 : s1.data * 2 ^ (digits - s1.bitsRem) < 2 ^ digits := by
            rw [← Nat.shiftLeft_eq]
            exact hxlt
          have hdvd : (buffer + s1.data * 2 ^ (digits - s1.bitsRem)) %
              2 ^ (digits - s1.bitsRem) = 0 := by
            refine Nat.dvd_iff_mod_eq_zero.mp
              (Nat.dvd_add ?_ (Dvd.intro_left _ rfl))
            exact dvd_trans (pow_dvd_pow 2 (Nat.sub_le _ _))
              (Nat.dvd_of_mod_eq_zero hlow)
          by_cases hsh0 : digits - s1.bitsRem ≠ 0
          · rw [if_pos hsh0]
            obtain ⟨s', heq, hI, hB⟩ :=
              ih (digits - s1.bitsRem) (buffer + s1.data * 2 ^ (digits - s1.bitsRem))
                ⟨s1.input, 0, s1.data⟩ mb2 r
                ⟨Nat.zero_le D, Or.inl rfl, hInv1.2.2⟩
                (Or.inr ⟨rfl, by omega⟩)
                (by rw [decBits]; dsimp only; simpa [bitsOfNat] using hrest)
                hlen2 (by omega)
                (buffer_add_lt (D := W) (b := digits) hlow hbuf hdW hxlt2)
                hdvd (by omega)
            refine ⟨s', ?_, hI, hB⟩
            rw [heq, hnat]
          · rw [if_neg hsh0]
            have hsh : digits - s1.bitsRem = 0 := by omega
            have hmb2nil : mb2 = [] := by
              rw [← List.length_eq_zero, hlen2, hsh]
            refine ⟨⟨s1.input, 0, s1.data⟩, ?_, ?_, ?_⟩
            · have := hnat
              rw [hmb2nil] at this
              rw [natOfBits] at this
              simp at this
              rw [this]
            · exact ⟨Nat.zero_le D, Or.inl rfl, hInv1.2.2⟩
            · rw [decBits]
              dsimp only
              rw [hmb2nil, List.nil_append] at hrest
              simpa [bitsOfNat] using hrest
        · rw [if_neg hge]
          dsimp only
          have hlt : digits < s1.bitsRem := by omega
          have hsum : digits + (s1.bitsRem - digits) = s1.bitsRem := by omega
          have hsplit : bitsOfNat s1.bitsRem s1.data =
              bitsOfNat digits (s1.data >>> (s1.bitsRem - digits)) ++
                bitsOfNat (s1.bitsRem - digits) s1.data := by
            conv_lhs => rw [← hsum, bitsOfNat_add]
          have happ : bitsOfNat digits (s1.data >>> (s1.bitsRem - digits)) ++
              (bitsOfNat (s1.bitsRem - digits) s1.data ++
                s1.input.flatMap (bitsOfNat D)) = mb ++ r := by
            rw [← List.append_assoc, ← hsplit]
            rw [decBits] at hbits1
            exact hbits1
          obtain ⟨hm1, hrest⟩ :=
            List.append_inj happ (by rw [bitsOfNat_length, hmb])
          have hdivlt : s1.data >>> (s1.bitsRem - digits) < 2 ^ digits := by
            rw [Nat.shiftRight_eq_div_pow,
              Nat.div_lt_iff_lt_mul (Nat.pos_pow_of_pos _ (by norm_num)), ← pow_add]
            rw [hsum]
            exact hdata1
          have hor : (buffer ||| s1.data >>> (s1.bitsRem - digits)) % 2 ^ W =
              buffer + s1.data >>> (s1.bitsRem - digits) :=
            or_write (b := digits) hlow hbuf hdW hdivlt
          have hnat1 : natOfBits mb = s1.data >>> (s1.bitsRem - digits) := by
            rw [← hm1, natOfBits_bitsOfNat]
            exact Nat.mod_eq_of_lt hdivlt
          have hdm : s1.data &&& make_mask D (s1.bitsRem - digits) =
              s1.data % 2 ^ (s1.bitsRem - digits) := by
            rw [make_mask_eq (le_trans (Nat.sub_le _ _) hInv1.1),
              Nat.and_pow_two_sub_one_eq_mod]
          rw [if_neg (by omega : ¬(0 : Nat) ≠ 0), hor, hdm]
          refine ⟨⟨s1.input, s1.bitsRem - digits,
            s1.data % 2 ^ (s1.bitsRem - digits)⟩, ?_, ?_, ?_⟩
          · rw [hnat1]
          · exact ⟨le_trans (Nat.sub_le _ _) hInv1.1,
              Or.inr (Nat.mod_lt _ (Nat.pos_pow_of_pos _ (by norm_num))),
              hInv1.2.2⟩
          · rw [decBits]
            dsimp only
            rw [bitsOfNat_mod_self]
            exact hrest

theorem and_xor_one {D br x : Nat} (hx : x < 2 ^ (br + 1)) (hD : br + 1 ≤ D) :
    x &&& ((2 ^ D - 1) ^^^ 1 <<< br) = x % 2 ^ br := by
  have h := and_xor_mask (W := D) (s := br) (f := 1) (x := x) (by simpa using hx) hD
  norm_num at h
  exact h

theorem skip_one {D : Nat} (s1 : DecState) (hInv : DecInv D s1)
    (hne : s1.data ≠ 0) (hbw : s1.bitsRem = bit_width s1.data)
    {r : List Bool} (hbits : decBits D s1 = true :: r) :
    DecInv D ⟨s1.input, s1.bitsRem - 1,
        s1.data &&& ((2 ^ D - 1) ^^^ 1 <<< (s1.bitsRem - 1))⟩ ∧
      s1.data &&& ((2 ^ D - 1) ^^^ 1 <<< (s1.bitsRem - 1)) =
        s1.data % 2 ^ (s1.bitsRem - 1) ∧
      decBits D ⟨s1.input, s1.bitsRem - 1,
        s1.data &&& ((2 ^ D - 1) ^^^ 1 <<< (s1.bitsRem - 1))⟩ = r := by
  have hbr1 : 1 ≤ s1.bitsRem := by
    rw [hbw]
    exact bit_width_pos hne
  have hdlt : s1.data < 2 ^ s1.bitsRem := by
    rw [hbw]
    exact lt_two_pow_bit_width s1.data
  have hda : s1.data &&& ((2 ^ D - 1) ^^^ 1 <<< (s1.bitsRem - 1)) =
      s1.data % 2 ^ (s1.bitsRem - 1) := by
    apply and_xor_one
    · have he : s1.bitsRem - 1 + 1 = s1.bitsRem := by omega
      rw [he]
      exact hdlt
    · have := hInv.1
      omega
  have hrbits : decBits D s1 =
      true :: (bitsOfNat (s1.bitsRem - 1) s1.data ++
        s1.input.flatMap (bitsOfNat D)) := by
    rw [decBits, hbw, bitsOfNat_bit_width hne, ← hbw, List.cons_append]
  rw [hbits] at hrbits
  have hr : r = bitsOfNat (s1.bitsRem - 1) s1.data ++
      s1.input.flatMap (bitsOfNat D) := by
    injection hrbits with _ h2
  refine ⟨?_, hda, ?_⟩
  · refine ⟨show s1.bitsRem - 1 ≤ D from by have := hInv.1; omega, Or.inr ?_, hInv.2.2⟩
    rw [hda]
    exact Nat.mod_lt _ (Nat.pos_pow_of_pos _ (by norm_num))
  · rw [decBits]
    dsimp only
    rw [hda, bitsOfNat_mod_self, hr]

theorem codewordBits_length {W k u : Nat} (hk : k < W) (hu : u < 2 ^ W) :
    (codewordBits W k u).length =
      if u + 2 ^ k < 2 ^ W then 2 * bit_width (u + 2 ^ k) - k - 1
      else 2 * W - k + 1 := by
  unfold codewordBits
  by_cases hov : u + 2 ^ k < 2 ^ W
  · rw [if_pos hov, if_pos hov]
    have hge : k + 1 ≤ bit_width (u + 2 ^ k) := by
      have := lt_bit_width_iff (n := u + 2 ^ k) (b := k)
      have hp : 0 < 2 ^ k := Nat.pos_pow_of_pos _ (by norm_num)
      omega
    simp [List.length_append, List.length_replicate, bitsOfNat_length]
    omega
  · rw [if_neg hov, if_neg hov]
    simp [List.length_append, List.length_replicate, bitsOfNat_length]
    omega

theorem codewordBits_pos {W k u : Nat} (hk : k < W) (hu : u < 2 ^ W) :
    1 ≤ (codewordBits W k u).length := by
  rw [codewordBits_length hk hu]
  split
  · have hge : k + 1 ≤ bit_width (u + 2 ^ k) := by
      have := lt_bit_width_iff (n := u + 2 ^ k) (b := k)
      have hp : 0 < 2 ^ k := Nat.pos_pow_of_pos _ (by norm_num)
      omega
    omega
  · omega

theorem hasData_false_iff {s : DecState} :
    hasData s = false ↔ s.bitsRem = 0 ∧ s.input = [] := by
  rw [hasData]
  cases hinp : s.input <;> simp [hinp] <;> omega

theorem pullCore_done {D W maxOut k : Nat} (hD : 0 < D) (s : DecState)
    (hInv : DecInv D s) {p : Nat}
    (hbits : decBits D s = List.replicate p false) :
    ∃ s', pullCore D W maxOut k s = (.done, s') ∧ hasData s' = false := by
  obtain ⟨s', hscan, h1, h2⟩ :=
    scanZeros_allzero hD s hInv hbits (s.input.length + 2) 0 le_rfl
  simp only [pullCore]
  rw [hscan]
  exact ⟨s', rfl, hasData_false_iff.mpr ⟨h1, h2⟩⟩

theorem pullCore_success {D W maxOut k : Nat} (hD : 0 < D) (hW : 0 < W)
    (hk : k < W) {u : Nat} (hu : u < 2 ^ W) (s : DecState) (hInv : DecInv D s)
    {r : List Bool} (hbits : decBits D s = codewordBits W k u ++ r) :
    ∃ s', pullCore D W maxOut k s = (.success u, s') ∧ DecInv D s' ∧
      decBits D s' = r := by
  have hkp : 0 < 2 ^ k := Nat.pos_pow_of_pos _ (by norm_num)
  by_cases hov : u + 2 ^ k < 2 ^ W
  · set v := u + 2 ^ k with hv
    have hvne : v ≠ 0 := by rw [hv]; omega
    set B := bit_width v with hB
    have hBk : k + 1 ≤ B := by
      rw [hB]
      have := lt_bit_width_iff (n := v) (b := k)
      omega
    have hBW : B ≤ W := by
      rw [hB]
      exact bit_width_le_iff.mpr hov
    have hB1 : 2 ^ (B - 1) ≤ v := by
      rw [hB]
      exact two_pow_bit_width_pred_le hvne
    have hB2 : v < 2 ^ B := by
      rw [hB]
      exact lt_two_pow_bit_width v
    have hcw : codewordBits W k u =
        List.replicate (B - (k + 1)) false ++ true :: bitsOfNat (B - 1) v := by
      have h1 : u + 2 ^ k = v := hv.symm
      rw [codewordBits, h1, if_pos hov, bitsOfNat_bit_width hvne, ← hB]
    rw [hcw, List.append_assoc, List.cons_append] at hbits
    obtain ⟨s1, hscan, hInv1, hbits1, hne1, hbw1⟩ :=
      scanZeros_found hD s hInv hbits (s.input.length + 2) 0 le_rfl
    simp only [pullCore]
    rw [hscan]
    dsimp only
    obtain ⟨hInv2, hda2, hbits2⟩ := skip_one s1 hInv1 hne1 hbw1 hbits1
    rw [if_neg (show ¬0 + (B - (k + 1)) + k > W by omega)]
    obtain ⟨s3, hread, hInv3, hbits3⟩ :=
      readBits_ok (D := D) (W := W) hD (0 + (B - (k + 1)) + k + 1)
        (0 + (B - (k + 1)) + k) 0
        ⟨s1.input, s1.bitsRem - 1,
          s1.data &&& ((2 ^ D - 1) ^^^ 1 <<< (s1.bitsRem - 1))⟩
        (bitsOfNat (B - 1) v) r hInv2
        (Or.inl (by
          dsimp only
          rw [hda2]
          exact Nat.mod_lt _ (Nat.pos_pow_of_pos _ (by norm_num))))
        hbits2 (by rw [bitsOfNat_length]; omega) (by omega)
        (Nat.pos_pow_of_pos _ (by norm_num)) (Nat.zero_mod _) le_rfl
    rw [hread]
    dsimp only
    have hbase : (make_mask W (0 + (B - (k + 1))) <<< k) % 2 ^ W =
        2 ^ (B - 1) - 2 ^ k := by
      rw [Nat.zero_add, make_mask_eq (by omega), Nat.shiftLeft_eq,
        Nat.sub_mul, one_mul, ← pow_add]
      have he : B - (k + 1) + k = B - 1 := by omega
      rw [he]
      apply Nat.mod_eq_of_lt
      have h3 : 2 ^ (B - 1) ≤ 2 ^ W := Nat.pow_le_pow_right (by norm_num) (by omega)
      omega
    have hbuf : natOfBits (bitsOfNat (B - 1) v) = v - 2 ^ (B - 1) := by
      rw [natOfBits_bitsOfNat]
      have h2 : v < 2 ^ (B - 1) * 2 := by
        have he : B = B - 1 + 1 := by omega
        rw [he, pow_succ] at hB2
        omega
      rw [Nat.mod_eq_sub_mod hB1]
      exact Nat.mod_eq_of_lt (by omega)
    have hval : (0 + natOfBits (bitsOfNat (B - 1) v) +
        (make_mask W (0 + (B - (k + 1))) <<< k) % 2 ^ W) % 2 ^ W = u := by
      rw [hbase, hbuf, Nat.zero_add]
      have hkB : 2 ^ k ≤ 2 ^ (B - 1) :=
        Nat.pow_le_pow_right (by norm_num) (by omega)
      have he2 : v - 2 ^ (B - 1) + (2 ^ (B - 1) - 2 ^ k) = u := by
        rw [hv]
        omega
      rw [he2]
      exact Nat.mod_eq_of_lt hu
    rw [hval]
    exact ⟨s3, rfl, hInv3, hbits3⟩
  · have hm2 : u + 2 ^ k < 2 ^ W + 2 ^ W := by
      have : 2 ^ k < 2 ^ W := Nat.pow_lt_pow_right (by norm_num) hk
      omega
    have hmlt : u + 2 ^ k - 2 ^ W < 2 ^ W := by omega
    have hdata : (u + 2 ^ k) % 2 ^ W = u + 2 ^ k - 2 ^ W := by
      rw [Nat.mod_eq_sub_mod (by omega), Nat.mod_eq_of_lt hmlt]
    have hcw : codewordBits W k u =
        List.replicate (W - k) false ++
          true :: bitsOfNat W (u + 2 ^ k - 2 ^ W) := by
      rw [codewordBits, if_neg hov, hdata]
    rw [hcw, List.append_assoc, List.cons_append] at hbits
    obtain ⟨s1, hscan, hInv1, hbits1, hne1, hbw1⟩ :=
      scanZeros_found hD s hInv hbits (s.input.length + 2) 0 le_rfl
    simp only [pullCore]
    rw [hscan]
    dsimp only
    obtain ⟨hInv2, hda2, hbits2⟩ := skip_one s1 hInv1 hne1 hbw1 hbits1
    rw [if_neg (show ¬0 + (W - k) + k > W by omega)]
    obtain ⟨s3, hread, hInv3, hbits3⟩ :=
      readBits_ok (D := D) (W := W) hD (0 + (W - k) + k + 1) (0 + (W - k) + k) 0
        ⟨s1.input, s1.bitsRem - 1,
          s1.data &&& ((2 ^ D - 1) ^^^ 1 <<< (s1.bitsRem - 1))⟩
        (bitsOfNat W (u + 2 ^ k - 2 ^ W)) r hInv2
        (Or.inl (by
          dsimp only
          rw [hda2]
          exact Nat.mod_lt _ (Nat.pos_pow_of_pos _ (by norm_num))))
        hbits2 (by rw [bitsOfNat_length]; omega) (by omega)
        (Nat.pos_pow_of_pos _ (by norm_num)) (Nat.zero_mod _) le_rfl
    rw [hread]
    dsimp only
    have hbase : (make_mask W (0 + (W - k)) <<< k) % 2 ^ W =
        2 ^ W - 2 ^ k := by
      rw [Nat.zero_add, make_mask_eq (by omega), Nat.shiftLeft_eq,
        Nat.sub_mul, one_mul, ← pow_add]
      have he : W - k + k = W := by omega
      rw [he]
      apply Nat.mod_eq_of_lt
      omega
    have hbuf : natOfBits (bitsOfNat W (u + 2 ^ k - 2 ^ W)) =
        u + 2 ^ k - 2 ^ W := by
      rw [natOfBits_bitsOfNat]
      exact Nat.mod_eq_of_lt hmlt
    have hval : (0 + natOfBits (bitsOfNat W (u + 2 ^ k - 2 ^ W)) +
        (make_mask W (0 + (W - k)) <<< k) % 2 ^ W) % 2 ^ W = u := by
      rw [hbase, hbuf, Nat.zero_add]
      have hkW : 2 ^ k ≤ 2 ^ W := Nat.pow_le_pow_right (by norm_num) (by omega)
      have he2 : u + 2 ^ k - 2 ^ W + (2 ^ W - 2 ^ k) = u := by omega
      rw [he2]
      exact Nat.mod_eq_of_lt hu
    rw [hval]
    exact ⟨s3, rfl, hInv3, hbits3⟩

theorem decBits_decInit (D : Nat) (chunks : List Nat) :
    decBits D (decInit D chunks) = chunks.flatMap (bitsOfNat D) := by
  cases chunks with
  | nil => rfl
  | cons c rest => simp [decBits, decInit, List.flatMap_cons]

theorem DecInv_decInit {D : Nat} (chunks : List Nat)
    (hc : ∀ c ∈ chunks, c < 2 ^ D) : DecInv D (decInit D chunks) := by
  cases chunks with
  | nil => exact ⟨Nat.zero_le D, Or.inl rfl, by intro c hc'; cases hc'⟩
  | cons c rest =>
    exact ⟨le_rfl, Or.inr (hc c (List.mem_cons_self c rest)),
      fun x hx => hc x (List.mem_cons_of_mem _ hx)⟩

theorem decBits_empty_of_noData {D : Nat} {s : DecState}
    (h : hasData s = false) : decBits D s = [] := by
  obtain ⟨h1, h2⟩ := hasData_false_iff.mp h
  rw [decBits, h1, h2]
  rfl

theorem hasData_of_decBits {D : Nat} {s : DecState}
    (h : decBits D s ≠ []) : hasData s = true := by
  cases hhd : hasData s with
  | false => exact absurd (decBits_empty_of_noData hhd) h
  | true => rfl

theorem decodeLoop_noData {D W maxOut k : Nat} (fuel : Nat) {s : DecState}
    (h : hasData s = false) : decodeLoop D W maxOut k fuel s = [] := by
  cases fuel with
  | zero => rfl
  | succ f => simp [decodeLoop, h]

theorem length_le_flatMap {α β : Type} (f : α → List β) :
    ∀ xs : List α, (∀ x ∈ xs, 0 < (f x).length) →
      xs.length ≤ (xs.flatMap f).length := by
  intro xs
  induction xs with
  | nil => intro _; simp
  | cons x xt ih =>
    intro h
    rw [List.flatMap_cons, List.length_append, List.length_cons]
    have h1 := h x (List.mem_cons_self x xt)
    have h2 := ih fun y hy => h y (List.mem_cons_of_mem _ hy)
    omega

theorem decodeLoop_spec {D W maxOut k : Nat} (hD : 0 < D) (hW : 0 < W)
    (hk : k < W) {p : Nat} (xs : List Nat) :
    ∀ fuel s, (∀ u ∈ xs, u < 2 ^ W) → DecInv D s →
      decBits D s = xs.flatMap (codewordBits W k) ++ List.replicate p false →
      xs.length + 1 ≤ fuel →
      decodeLoop D W maxOut k fuel s = xs := by
  have hmin : min k (W - 1) = k := by omega
  induction xs with
  | nil =>
    intro fuel s _ hInv hbits hfuel
    rw [List.flatMap_nil, List.nil_append] at hbits
    cases fuel with
    | zero => exact absurd hfuel (by omega)
    | succ f =>
      rw [decodeLoop]
      by_cases hhd : hasData s = true
      · rw [if_pos hhd]
        obtain ⟨s', hpull, hnd⟩ :=
          @pullCore_done D W maxOut (min k (W - 1)) hD s hInv p hbits
        rw [decPull_min, hpull]
        exact decodeLoop_noData f hnd
      · rw [if_neg hhd]
  | cons x xt ih =>
    intro fuel s hxs hInv hbits hfuel
    rw [List.flatMap_cons, List.append_assoc] at hbits
    cases fuel with
    | zero => exact absurd hfuel (by omega)
    | succ f =>
      have hxu : x < 2 ^ W := hxs x (List.mem_cons_self x xt)
      obtain ⟨s', hpull, hInv', hbits'⟩ :=
        @pullCore_success D W maxOut k hD hW hk x hxu s hInv _ hbits
      rw [decodeLoop]
      have hne : decBits D s ≠ [] := by
        rw [hbits]
        intro hc
        have h1 := codewordBits_pos hk hxu
        have h2 := congrArg List.length hc
        rw [List.length_append] at h2
        simp only [List.length_nil] at h2
        omega
      rw [if_pos (hasData_of_decBits hne), decPull_min, hmin, hpull]
      dsimp only
      rw [ih f s' (fun y hy => hxs y (List.mem_cons_of_mem _ hy)) hInv' hbits'
        (by simp only [List.length_cons] at hfuel; omega)]

theorem decode_encode_u {W D k : Nat} (hW : 0 < W) (hD : 0 < D) (hk : k < W)
    (xs : List Nat) (hxs : ∀ u ∈ xs, u < 2 ^ W) :
    decode_u W D k (encode_u W D k xs) = xs := by
  obtain ⟨p, hp, hbits, hbound, _⟩ := encode_u_bits hW hD hk xs hxs
  rw [decode_u]
  refine decodeLoop_spec hD hW hk xs _ _ hxs (DecInv_decInit _ hbound)
    (by rw [decBits_decInit, hbits]) ?_
  have h1 : xs.length ≤ (xs.flatMap (codewordBits W k)).length :=
    length_le_flatMap _ xs fun u hu => codewordBits_pos hk (hxs u hu)
  have h2 := congrArg List.length hbits
  rw [flatMap_bits_length, List.length_append, List.length_replicate] at h2
  omega

theorem decodeLoopS_eq_map (D W k : Nat) :
    ∀ fuel s, decodeLoopS D W k fuel s =
      (decodeLoop D W (2 ^ (W - 1) - 1) k fuel s).map (to_integral W) := by
  intro fuel
  induction fuel with
  | zero => intro s; rfl
  | succ f ih =>
    intro s
    rw [decodeLoopS, decodeLoop]
    by_cases hhd : hasData s = true
    · rw [if_pos hhd, if_pos hhd]
      cases hres : decPull D W (2 ^ (W - 1) - 1) k s with
      | mk r s' => cases r <;> simp [ih]
    · rw [if_neg hhd, if_neg hhd]
      rfl

theorem two_pow_split {W : Nat} (hW : 0 < W) : 2 ^ W = 2 * 2 ^ (W - 1) := by
  conv_lhs => rw [show W = W - 1 + 1 from by omega]
  rw [pow_succ]
  ring

theorem to_unsigned_nonneg (W : Nat) (s : Int) (hs : 0 ≤ s)
    (hlt : s < 2 ^ (W - 1)) (hW : 0 < W) :
    to_unsigned W s = 2 * s.toNat := by
  rw [to_unsigned, if_neg (by omega)]
  have hcast : ((2 ^ (W - 1) : Nat) : Int) = 2 ^ (W - 1) := by push_cast; rfl
  have h2W : (2 : Nat) ^ W = 2 * 2 ^ (W - 1) := two_pow_split hW
  have hlt2 : s * 2 < ((2 ^ W : Nat) : Int) := by
    have : ((2 ^ W : Nat) : Int) = 2 * ((2 ^ (W - 1) : Nat) : Int) := by
      rw [h2W]; push_cast; ring
    omega
  rw [Int.emod_eq_of_lt (by omega) hlt2]
  omega

theorem to_unsigned_neg (W : Nat) (s : Int) (hs : s < 0)
    (hge : -(2 ^ (W - 1) : Int) ≤ s) (hW : 0 < W) :
    to_unsigned W s = 2 * (-s - 1).toNat + 1 := by
  rw [to_unsigned, if_pos hs]
  have hcast : ((2 ^ (W - 1) : Nat) : Int) = 2 ^ (W - 1) := by push_cast; rfl
  have h2W : (2 : Nat) ^ W = 2 * 2 ^ (W - 1) := two_pow_split hW
  have hlt2 : (-s - 1) * 2 + 1 < ((2 ^ W : Nat) : Int) := by
    have : ((2 ^ W : Nat) : Int) = 2 * ((2 ^ (W - 1) : Nat) : Int) := by
      rw [h2W]; push_cast; ring
    omega
  rw [Int.emod_eq_of_lt (by omega) hlt2]
  omega

theorem to_unsigned_lt {W : Nat} (hW : 0 < W) (s : Int)
    (h1 : -(2 ^ (W - 1) : Int) ≤ s) (h2 : s < 2 ^ (W - 1)) :
    to_unsigned W s < 2 ^ W := by
  have hcast : ((2 ^ (W - 1) : Nat) : Int) = 2 ^ (W - 1) := by push_cast; rfl
  have h2W : (2 : Nat) ^ W = 2 * 2 ^ (W - 1) := two_pow_split hW
  by_cases hs : s < 0
  · rw [to_unsigned_neg W s hs h1 hW]
    omega
  · rw [to_unsigned_nonneg W s (by omega) h2 hW]
    omega

theorem to_integral_even {W q : Nat} (hW : 0 < W) (hq : q < 2 ^ (W - 1)) :
    to_integral W (2 * q) = (q : Int) := by
  have h2W : (2 : Nat) ^ W = 2 * 2 ^ (W - 1) := two_pow_split hW
  rw [to_integral]
  have hmod : 2 * q % 2 ^ W = 2 * q := Nat.mod_eq_of_lt (by omega)
  rw [hmod, Nat.and_one_is_mod, if_neg (by omega), Nat.shiftRight_eq_div_pow,
    pow_one, show 2 * q / 2 = q by omega, toSignedInt, if_pos hq]

theorem to_integral_odd {W q : Nat} (hW : 0 < W) (hq : q < 2 ^ (W - 1)) :
    to_integral W (2 * q + 1) = -(q : Int) - 1 := by
  have h2W : (2 : Nat) ^ W = 2 * 2 ^ (W - 1) := two_pow_split hW
  rw [to_integral]
  have hmod : (2 * q + 1) % 2 ^ W = 2 * q + 1 := Nat.mod_eq_of_lt (by omega)
  rw [hmod, Nat.and_one_is_mod, if_pos (by omega), Nat.shiftRight_eq_div_pow,
    pow_one, show (2 * q + 1) / 2 = q by omega, toSignedInt,
    if_neg (show ¬2 ^ W - 1 - q < 2 ^ (W - 1) by omega)]
  have hcast : ((2 ^ W - 1 - q : Nat) : Int) = ((2 ^ W : Nat) : Int) - 1 - q := by
    omega
  rw [hcast]
  have hpow : ((2 ^ W : Nat) : Int) = 2 ^ W := by push_cast; rfl
  omega

theorem to_integral_to_unsigned {W : Nat} (hW : 0 < W) (s : Int)
    (h1 : -(2 ^ (W - 1) : Int) ≤ s) (h2 : s < 2 ^ (W - 1)) :
    to_integral W (to_unsigned W s) = s := by
  have hcast : ((2 ^ (W - 1) : Nat) : Int) = 2 ^ (W - 1) := by push_cast; rfl
  by_cases hs : s < 0
  · rw [to_unsigned_neg W s hs h1 hW,
      to_integral_odd hW (show (-s - 1).toNat < 2 ^ (W - 1) by omega)]
    omega
  · rw [to_unsigned_nonneg W s (by omega) h2 hW,
      to_integral_even hW (show s.toNat < 2 ^ (W - 1) by omega)]
    omega

theorem to_unsigned_to_integral {W : Nat} (hW : 0 < W) (u : Nat)
    (hu : u < 2 ^ W) : to_unsigned W (to_integral W u) = u := by
  have h2W : (2 : Nat) ^ W = 2 * 2 ^ (W - 1) := two_pow_split hW
  have hcast : ((2 ^ (W - 1) : Nat) : Int) = 2 ^ (W - 1) := by push_cast; rfl
  by_cases hpar : u % 2 = 1
  · have hq : u = 2 * (u / 2) + 1 := by omega
    have hqlt : u / 2 < 2 ^ (W - 1) := by omega
    rw [hq, to_integral_odd hW hqlt,
      to_unsigned_neg W _ (by omega) (by omega) hW]
    congr 1
    omega
  · have hq : u = 2 * (u / 2) := by omega
    have hqlt : u / 2 < 2 ^ (W - 1) := by omega
    rw [hq, to_integral_even hW hqlt,
      to_unsigned_nonneg W _ (by omega) (by omega) hW]
    omega

theorem to_integral_range {W : Nat} (hW : 0 < W) (u : Nat) (hu : u < 2 ^ W) :
    -(2 ^ (W - 1) : Int) ≤ to_integral W u ∧
      to_integral W u < 2 ^ (W - 1) := by
  have h2W : (2 : Nat) ^ W = 2 * 2 ^ (W - 1) := two_pow_split hW
  have hcast : ((2 ^ (W - 1) : Nat) : Int) = 2 ^ (W - 1) := by push_cast; rfl
  by_cases hpar : u % 2 = 1
  · have hq : u = 2 * (u / 2) + 1 := by omega
    have hqlt : u / 2 < 2 ^ (W - 1) := by omega
    rw [hq, to_integral_odd hW hqlt]
    constructor <;> omega
  · have hq : u = 2 * (u / 2) := by omega
    have hqlt : u / 2 < 2 ^ (W - 1) := by omega
    rw [hq, to_integral_even hW hqlt]
    constructor <;> omega

theorem flush_bits {D : Nat} (hD : 0 < D) (sf : EncState) (hInv : EncInv D sf) :
    ∃ p, p < D ∧
      (flush D sf).out.flatMap (bitsOfNat D) =
        encBits D sf ++ List.replicate p false ∧
      ∀ c ∈ (flush D sf).out, c < 2 ^ D := by
  unfold flush
  by_cases hbf : sf.bitsFree < D
  · rw [if_pos hbf]
    refine ⟨sf.bitsFree, hbf, ?_, ?_⟩
    · dsimp only
      rw [flatMap_emit sf hInv]
    · dsimp only
      exact (EncInv_emit sf hInv).2.2.2
  · rw [if_neg hbf]
    have hbfD : sf.bitsFree = D := by
      have := hInv.1
      omega
    refine ⟨0, hD, ?_, hInv.2.2.2⟩
    rw [← encBits_eq_flatMap sf hbfD]
    simp

theorem decode_encode_s {W D k : Nat} (hW : 0 < W) (hD : 0 < D) (hk : k < W)
    (ys : List Int)
    (hys : ∀ x ∈ ys, -(2 ^ (W - 1) : Int) ≤ x ∧ x < 2 ^ (W - 1)) :
    decode_s W D k (encode_s W D k ys) = ys := by
  have henc : encode_s W D k ys = encode_u W D k (ys.map (to_unsigned W)) := by
    rw [encode_s, encode_u, List.foldl_map]
  have hmap : ∀ u ∈ ys.map (to_unsigned W), u < 2 ^ W := by
    intro u hu
    rw [List.mem_map] at hu
    obtain ⟨x, hx, rfl⟩ := hu
    exact to_unsigned_lt hW x (hys x hx).1 (hys x hx).2
  obtain ⟨p, hp, hbits, hbound, _⟩ := encode_u_bits hW hD hk _ hmap
  have hfuel : (ys.map (to_unsigned W)).length + 1 ≤
      D * (encode_u W D k (ys.map (to_unsigned W))).length + D + 2 := by
    have h1 : (ys.map (to_unsigned W)).length ≤
        ((ys.map (to_unsigned W)).flatMap (codewordBits W k)).length :=
      length_le_flatMap _ _ fun u hu => codewordBits_pos hk (hmap u hu)
    have h2 := congrArg List.length hbits
    rw [flatMap_bits_length, List.length_append, List.length_replicate] at h2
    omega
  rw [decode_s, henc, decodeLoopS_eq_map,
    decodeLoop_spec hD hW hk _ _ _ hmap (DecInv_decInit _ hbound)
      (by rw [decBits_decInit, hbits]) hfuel, List.map_map]
  conv_rhs => rw [← List.map_id ys]
  exact List.map_congr_left fun x hx =>
    to_integral_to_unsigned hW x (hys x hx).1 (hys x hx).2

/-- The bit stream produced by the adaptive encoder from order `k`: each
value's codeword at the clamped current order, the order then updated by the
exponential moving average. -/
def adaptiveBits (W N : Nat) : Nat → List Nat → List Bool
  | _, [] => []
  | k, u :: us =>
    codewordBits W (min k (W - 1)) u ++
      adaptiveBits W N (k - (k >>> N) + (bit_width u >>> N)) us

/-- The decoder-side order trace written as a driver on a chunk list, for
comparison with `adaptiveEncodeKs`. -/
def adaptive_decode_ks (W D N k : Nat) (chunks : List Nat) : List Nat :=
  adaptiveDecodeKs W D N (D * chunks.length + D + 2) k (decInit D chunks)

theorem adaptiveEncodeLoop_bits {W D N : Nat} (hW : 0 < W) (hD : 0 < D) :
    ∀ (xs : List Nat) (k : Nat) (s : EncState), EncInv D s →
      (∀ u ∈ xs, u < 2 ^ W) →
      EncInv D (adaptiveEncodeLoop W D N k xs s) ∧
      encBits D (adaptiveEncodeLoop W D N k xs s) =
        encBits D s ++ adaptiveBits W N k xs := by
  intro xs
  induction xs with
  | nil =>
    intro k s hInv _
    exact ⟨hInv, by rw [adaptiveEncodeLoop, adaptiveBits, List.append_nil]⟩
  | cons u us ih =>
    intro k s hInv hxs
    rw [adaptiveEncodeLoop]
    have hmin : min k (W - 1) < W := by omega
    obtain ⟨hI1, hb1⟩ :=
      pushU_bits hW hD hmin (hxs u (List.mem_cons_self u us)) s hInv
    obtain ⟨hI2, hb2⟩ := ih (k - (k >>> N) + (bit_width u >>> N))
      (encPush W D u k s) (by rw [encPush_min]; exact hI1)
      (fun y hy => hxs y (List.mem_cons_of_mem _ hy))
    refine ⟨hI2, ?_⟩
    rw [hb2, encPush_min, hb1, adaptiveBits, List.append_assoc]

theorem adaptive_encode_bits {W D N k : Nat} (hW : 0 < W) (hD : 0 < D)
    (xs : List Nat) (hxs : ∀ u ∈ xs, u < 2 ^ W) :
    ∃ p, p < D ∧
      (adaptive_encode W D N k xs).flatMap (bitsOfNat D) =
        adaptiveBits W N k xs ++ List.replicate p false ∧
      ∀ c ∈ adaptive_encode W D N k xs, c < 2 ^ D := by
  obtain ⟨hI, hb⟩ :=
    adaptiveEncodeLoop_bits hW hD xs k (encInit D) (encInit_inv hD) hxs
  rw [encBits_init, List.nil_append] at hb
  obtain ⟨p, hp, hfb, hc⟩ := flush_bits hD _ hI
  rw [hb] at hfb
  exact ⟨p, hp, hfb, hc⟩

theorem adaptiveDecodeLoop_noData {W D N : Nat} (fuel k : Nat) {s : DecState}
    (h : hasData s = false) :
    adaptiveDecodeLoop W D N fuel k s = [] ∧
      adaptiveDecodeKs W D N fuel k s = [] := by
  cases fuel with
  | zero => exact ⟨rfl, rfl⟩
  | succ f =>
    constructor
    · simp [adaptiveDecodeLoop, h]
    · simp [adaptiveDecodeKs, h]

theorem length_le_adaptiveBits {W N : Nat} (hW : 0 < W) :
    ∀ (xs : List Nat) (k : Nat), (∀ u ∈ xs, u < 2 ^ W) →
      xs.length ≤ (adaptiveBits W N k xs).length := by
  intro xs
  induction xs with
  | nil => intro k _; simp [adaptiveBits]
  | cons u us ih =>
    intro k hxs
    rw [adaptiveBits, List.length_append, List.length_cons]
    have h1 := codewordBits_pos (show min k (W - 1) < W by omega)
      (hxs u (List.mem_cons_self u us))
    have h2 := ih (k - (k >>> N) + (bit_width u >>> N))
      (fun y hy => hxs y (List.mem_cons_of_mem _ hy))
    omega

theorem adaptiveDecodeLoop_spec {W D N : Nat} (hW : 0 < W) (hD : 0 < D)
    {p : Nat} :
    ∀ (xs : List Nat) (k fuel : Nat) (s : DecState),
      (∀ u ∈ xs, u < 2 ^ W) → DecInv D s →
      decBits D s = adaptiveBits W N k xs ++ List.replicate p false →
      xs.length + 1 ≤ fuel →
      adaptiveDecodeLoop W D N fuel k s = xs ∧
      adaptiveDecodeKs W D N fuel k s = adaptiveEncodeKs N k xs := by
  intro xs
  induction xs with
  | nil =>
    intro k fuel s _ hInv hbits hfuel
    rw [adaptiveBits, List.nil_append] at hbits
    cases fuel with
    | zero => exact absurd hfuel (by omega)
    | succ f =>
      by_cases hhd : hasData s = true
      · obtain ⟨s', hpull, hnd⟩ :=
          @pullCore_done D W (2 ^ W - 1) (min k (W - 1)) hD s hInv p hbits
        constructor
        · rw [adaptiveDecodeLoop, if_pos hhd, decPull_min, hpull]
          exact (adaptiveDecodeLoop_noData f k hnd).1
        · rw [adaptiveDecodeKs, if_pos hhd, decPull_min, hpull]
          exact (adaptiveDecodeLoop_noData f k hnd).2
      · constructor
        · rw [adaptiveDecodeLoop, if_neg hhd]
        · rw [adaptiveDecodeKs, if_neg hhd, adaptiveEncodeKs]
  | cons u us ih =>
    intro k fuel s hxs hInv hbits hfuel
    rw [adaptiveBits, List.append_assoc] at hbits
    cases fuel with
    | zero => exact absurd hfuel (by omega)
    | succ f =>
      have hxu : u < 2 ^ W := hxs u (List.mem_cons_self u us)
      have hmin : min k (W - 1) < W := by omega
      obtain ⟨s', hpull, hInv', hbits'⟩ :=
        @pullCore_success D W (2 ^ W - 1) (min k (W - 1)) hD hW hmin u hxu s
          hInv _ hbits
      have hne : decBits D s ≠ [] := by
        rw [hbits]
        intro hc
        have h1 := codewordBits_pos hmin hxu
        have h2 := congrArg List.length hc
        rw [List.length_append] at h2
        simp only [List.length_nil] at h2
        omega
      have hhd := hasData_of_decBits hne
      obtain ⟨hl, hks⟩ := ih (k - (k >>> N) + (bit_width u >>> N)) f s'
        (fun y hy => hxs y (List.mem_cons_of_mem _ hy)) hInv' hbits'
        (by simp only [List.length_cons] at hfuel; omega)
      constructor
      · rw [adaptiveDecodeLoop, if_pos hhd, decPull_min, hpull]
        dsimp only
        rw [hl]
      · rw [adaptiveDecodeKs, if_pos hhd, decPull_min, hpull]
        dsimp only
        rw [hks, adaptiveEncodeKs]

/-- C1: for every sequence of `W`-bit values (unsigned, or signed within the
`W`-bit two's-complement range), every chunk width `D` and every order
`0 ≤ k < W`, decoding the encoded stream with the same order and widths
yields exactly the input: `decode(encode(xs, k), k) = xs`. -/
theorem C1_round_trip {W D k : Nat} (hW : 0 < W) (hD : 0 < D) (hk : k < W)
    (xs : List Nat) (hxs : ∀ u ∈ xs, u < 2 ^ W)
    (ys : List Int)
    (hys : ∀ x ∈ ys, -(2 ^ (W - 1) : Int) ≤ x ∧ x < 2 ^ (W - 1)) :
    decode_u W D k (encode_u W D k xs) = xs ∧
      decode_s W D k (encode_s W D k ys) = ys :=
  ⟨decode_encode_u hW hD hk xs hxs, decode_encode_s hW hD hk ys hys⟩

theorem C1_round_trip_witness :
    decode_u 8 8 1 (encode_u 8 8 1 [0, 5, 255]) = [0, 5, 255] ∧
      decode_s 8 8 1 (encode_s 8 8 1 [-128, 127, 0]) = [-128, 127, 0] :=
  C1_round_trip (by decide) (by decide) (by decide) [0, 5, 255] (by decide)
    [-128, 127, 0] (by decide)

/-- C2 (amended): in the overflow case `2^W ≤ u + 2^k`, `encoder::push`
emits `W - k` leading zero bits and a single 1 marker bit, but the `W`-bit
payload that follows is the wrapped sum `(u + 2^k) mod 2^W`, not `u`
itself. -/
theorem C2_overflow_payload {W D k u : Nat} (hW : 0 < W) (hD : 0 < D)
    (hk : k < W) (hu : u < 2 ^ W) (hov : 2 ^ W ≤ u + 2 ^ k) (s : EncState)
    (hInv : EncInv D s) :
    encBits D (pushU W D k u s) =
      encBits D s ++ (List.replicate (W - k) false ++
        true :: bitsOfNat W ((u + 2 ^ k) % 2 ^ W)) := by
  rw [(pushU_bits hW hD hk hu s hInv).2, codewordBits, if_neg (by omega)]

theorem C2_overflow_payload_witness :
    encBits 8 (pushU 8 8 0 255 (encInit 8)) =
      encBits 8 (encInit 8) ++ (List.replicate 8 false ++
        true :: bitsOfNat 8 ((255 + 2 ^ 0) % 2 ^ 8)) :=
  C2_overflow_payload (by decide) (by decide) (by decide) (by decide)
    (by decide) (encInit 8) (encInit_inv (by decide))

/-- C2 (counterexample to the spec's wording): pushing `u = 255` at `W = 8`,
`k = 0` wraps `255 + 1` to `0`, and the eight payload bits after the marker
are those of `0`; they are not the bits of `u = 255`. -/
theorem C2_overflow_payload_cex :
    ((encode_u 8 8 0 [255]).flatMap (bitsOfNat 8)).take 17 =
      List.replicate 8 false ++ true :: bitsOfNat 8 ((255 + 2 ^ 0) % 2 ^ 8) ∧
    ((encode_u 8 8 0 [255]).flatMap (bitsOfNat 8)).take 17 ≠
      List.replicate 8 false ++ true :: bitsOfNat 8 255 := by decide

/-- C3: in adaptive mode both sides code each value with the current
(pre-update) order and then update it by
`k ← k - (k >> N) + (bit_width u >> N)` with the coded magnitude `u`; the
decoder reproduces the encoder's order sequence exactly and the adaptive
round trip is the identity. -/
theorem C3_adaptive_lock_step {W D N k : Nat} (hW : 0 < W) (hD : 0 < D)
    (xs : List Nat) (hxs : ∀ u ∈ xs, u < 2 ^ W) :
    adaptive_decode W D N k (adaptive_encode W D N k xs) = xs ∧
      adaptive_decode_ks W D N k (adaptive_encode W D N k xs) =
        adaptiveEncodeKs N k xs := by
  obtain ⟨p, hp, hbits, hbound⟩ :=
    adaptive_encode_bits (N := N) (k := k) hW hD xs hxs
  have hfuel : xs.length + 1 ≤
      D * (adaptive_encode W D N k xs).length + D + 2 := by
    have h1 := length_le_adaptiveBits (N := N) hW xs k hxs
    have h2 := congrArg List.length hbits
    rw [flatMap_bits_length, List.length_append, List.length_replicate] at h2
    omega
  have h := adaptiveDecodeLoop_spec hW hD xs k
    (D * (adaptive_encode W D N k xs).length + D + 2)
    (decInit D (adaptive_encode W D N k xs)) hxs
    (DecInv_decInit _ hbound) (by rw [decBits_decInit, hbits]) hfuel
  exact ⟨h.1, h.2⟩

theorem C3_adaptive_lock_step_witness :
    adaptive_decode 8 8 1 0 (adaptive_encode 8 8 1 0 [0, 200, 3]) =
        [0, 200, 3] ∧
      adaptive_decode_ks 8 8 1 0 (adaptive_encode 8 8 1 0 [0, 200, 3]) =
        adaptiveEncodeKs 1 0 [0, 200, 3] :=
  C3_adaptive_lock_step (by decide) (by decide) [0, 200, 3] (by decide)

/-- C4 (amended): the decode driver discards the value of a `zero_overflow`
pull — nothing is written to the sink for it — and continues decoding from
the state the pull left. -/
theorem C4_zero_overflow_write {D W maxOut k fuel n : Nat} {s s' : DecState}
    (hhd : hasData s = true)
    (hpull : decPull D W maxOut k s = (.zeroOverflow n, s')) :
    decodeLoop D W maxOut k (fuel + 1) s = decodeLoop D W maxOut k fuel s' := by
  rw [decodeLoop, if_pos hhd, hpull]

theorem C4_zero_overflow_write_witness :
    decodeLoop 8 8 255 0 1 (decInit 8 [0, 64]) =
      decodeLoop 8 8 255 0 0 ⟨[], 6, 0⟩ :=
  C4_zero_overflow_write (n := 9) (by decide) (by decide)

/-- C4 (counterexample to the spec's wording): the stream `0x00 0x40` holds
nine leading zeros before the marker, so at `k = 0`, `W = 8` the pull
reports `zero_overflow 9`; the driver's output is empty — the clamped zero
count is never written to the sink. -/
theorem C4_zero_overflow_write_cex :
    decPull 8 8 (2 ^ 8 - 1) 0 (decInit 8 [0, 64]) =
        (.zeroOverflow 9, ⟨[], 6, 0⟩) ∧
      decode_u 8 8 0 [0, 64] = [] := by decide

/-- C5: a non-overflowing value `u` is coded as `bit_width v - k - 1` zero
bits followed by the `bit_width v` bits of `v = u + 2^k` MSB-first — in all
`2·bit_width v - k - 1` bits; an overflow codeword is `2W - k + 1` bits. -/
theorem C5_codeword_shape {W D k u : Nat} (hW : 0 < W) (hD : 0 < D)
    (hk : k < W) (hu : u < 2 ^ W) (s : EncState) (hInv : EncInv D s) :
    (u + 2 ^ k < 2 ^ W →
      encBits D (pushU W D k u s) = encBits D s ++
        (List.replicate (bit_width (u + 2 ^ k) - (k + 1)) false ++
          bitsOfNat (bit_width (u + 2 ^ k)) (u + 2 ^ k)) ∧
      (encBits D (pushU W D k u s)).length =
        (encBits D s).length + (2 * bit_width (u + 2 ^ k) - k - 1)) ∧
    (2 ^ W ≤ u + 2 ^ k →
      (encBits D (pushU W D k u s)).length =
        (encBits D s).length + (2 * W - k + 1)) := by
  obtain ⟨_, hb⟩ := pushU_bits hW hD hk hu s hInv
  refine ⟨fun hov => ⟨?_, ?_⟩, fun hov => ?_⟩
  · rw [hb, codewordBits, if_pos hov]
  · rw [hb, List.length_append, codewordBits_length hk hu, if_pos hov]
  · rw [hb, List.length_append, codewordBits_length hk hu, if_neg (by omega)]

theorem C5_codeword_shape_witness :
    encBits 8 (pushU 8 8 2 10 (encInit 8)) = encBits 8 (encInit 8) ++
        (List.replicate (bit_width (10 + 2 ^ 2) - (2 + 1)) false ++
          bitsOfNat (bit_width (10 + 2 ^ 2)) (10 + 2 ^ 2)) ∧
      (encBits 8 (pushU 8 8 2 253 (encInit 8))).length =
        (encBits 8 (encInit 8)).length + (2 * 8 - 2 + 1) :=
  ⟨((C5_codeword_shape (by decide) (by decide) (by decide) (by decide)
      (encInit 8) (encInit_inv (by decide))).1 (by decide)).1,
    (C5_codeword_shape (by decide) (by decide) (by decide) (by decide)
      (encInit 8) (encInit_inv (by decide))).2 (by decide)⟩

/-- C6: ZigZag is a bijection between the `W`-bit signed and unsigned
ranges: `to_integral` inverts `to_unsigned` on every signed value of the
range, the signed minimum `-2^(W-1)` maps to the unsigned maximum
`2^W - 1`, and `to_unsigned` inverts `to_integral` on every unsigned
`W`-bit value. -/
theorem C6_zigzag_bijection {W : Nat} (hW : 0 < W) :
    (∀ s : Int, -(2 ^ (W - 1) : Int) ≤ s → s < 2 ^ (W - 1) →
      to_integral W (to_unsigned W s) = s) ∧
    to_unsigned W (-(2 ^ (W - 1) : Int)) = 2 ^ W - 1 ∧
    (∀ u : Nat, u < 2 ^ W → to_unsigned W (to_integral W u) = u) := by
  refine ⟨fun s h1 h2 => to_integral_to_unsigned hW s h1 h2, ?_,
    fun u hu => to_unsigned_to_integral hW u hu⟩
  have hcast : ((2 ^ (W - 1) : Nat) : Int) = 2 ^ (W - 1) := by push_cast; rfl
  have h2W : (2 : Nat) ^ W = 2 * 2 ^ (W - 1) := two_pow_split hW
  have hpos : (0 : Int) < 2 ^ (W - 1) := by positivity
  rw [to_unsigned_neg W _ (by omega) le_rfl hW]
  omega

theorem C6_zigzag_bijection_witness :
    to_integral 8 (to_unsigned 8 (-37)) = -37 ∧
      to_unsigned 8 (-(2 ^ (8 - 1) : Int)) = 2 ^ 8 - 1 ∧
      to_unsigned 8 (to_integral 8 142) = 142 :=
  ⟨(C6_zigzag_bijection (by decide)).1 (-37) (by decide) (by decide),
    (C6_zigzag_bijection (by decide)).2.1,
    (C6_zigzag_bijection (by decide)).2.2 142 (by decide)⟩

/-- C7: on a stream whose next bits are `z` zeros terminated by a 1 bit,
`decoder::pull` returns `zero_overflow` exactly when `z` exceeds `W - k`
(`W` the output type's bit width), and the value it carries is the observed
zero count clamped to the output maximum `maxOut`. -/
theorem C7_zero_overflow_condition {D W maxOut k : Nat} (hD : 0 < D)
    (hk : k ≤ W) (s : DecState) (hInv : DecInv D s) {z : Nat} {r : List Bool}
    (hbits : decBits D s = List.replicate z false ++ true :: r) :
    (W - k < z →
      ∃ s', pullCore D W maxOut k s = (.zeroOverflow (min maxOut z), s')) ∧
    (z ≤ W - k → ∀ n s', pullCore D W maxOut k s ≠ (.zeroOverflow n, s')) := by
  obtain ⟨s1, hscan, hInv1, hbits1, hne1, hbw1⟩ :=
    scanZeros_found hD s hInv hbits (s.input.length + 2) 0 le_rfl
  constructor
  · intro hz
    simp only [pullCore]
    rw [hscan]
    dsimp only
    rw [if_pos (show 0 + z + k > W by omega), Nat.zero_add]
    exact ⟨_, rfl⟩
  · intro hz n s'
    simp only [pullCore]
    rw [hscan]
    dsimp only
    rw [if_neg (show ¬0 + z + k > W by omega)]
    split <;> intro hc <;> simp at hc

theorem C7_zero_overflow_condition_witness :
    ∃ s', pullCore 8 8 255 0 (decInit 8 [0, 64]) =
      (.zeroOverflow (min 255 9), s') :=
  (C7_zero_overflow_condition (by decide) (by decide) (decInit 8 [0, 64])
    (DecInv_decInit [0, 64] (by decide))
    (r := List.replicate 6 false) (by decide)).1 (by decide)

/-- C8: the encoder writes `⌈total_bits / D⌉` chunks in all, the final
chunk's unused low bits being zero padding; `flush` emits one chunk exactly
when bits are buffered (`bits_free < D`) and is idempotent — a flush with
nothing buffered, a second consecutive flush included, writes nothing. -/
theorem C8_chunk_count_flush {W D k : Nat} (hW : 0 < W) (hD : 0 < D)
    (hk : k < W) (xs : List Nat) (hxs : ∀ u ∈ xs, u < 2 ^ W) (s : EncState) :
    (∃ p, p < D ∧
      (encode_u W D k xs).flatMap (bitsOfNat D) =
        xs.flatMap (codewordBits W k) ++ List.replicate p false ∧
      (encode_u W D k xs).length =
        ((xs.flatMap (codewordBits W k)).length + D - 1) / D) ∧
    (s.bitsFree < D → flush D s = ⟨s.out ++ [s.buffer], 0, D⟩) ∧
    (D ≤ s.bitsFree → flush D s = s) ∧
    flush D (flush D s) = flush D s := by
  refine ⟨?_, fun h => by rw [flush, if_pos h], fun h => by
    rw [flush, if_neg (by omega)], ?_⟩
  · obtain ⟨p, hp, hb, _, hl⟩ := encode_u_bits hW hD hk xs hxs
    exact ⟨p, hp, hb, hl⟩
  · by_cases h : s.bitsFree < D
    · have h1 : flush D s = ⟨s.out ++ [s.buffer], 0, D⟩ := by
        rw [flush, if_pos h]
      rw [h1, flush]
      dsimp only
      rw [if_neg (lt_irrefl D)]
    · have h1 : flush D s = s := by rw [flush, if_neg h]
      rw [h1]
      exact h1

theorem C8_chunk_count_flush_witness :
    (∃ p, p < 8 ∧
      (encode_u 8 8 0 [7, 8]).flatMap (bitsOfNat 8) =
        [7, 8].flatMap (codewordBits 8 0) ++ List.replicate p false ∧
      (encode_u 8 8 0 [7, 8]).length =
        (([7, 8].flatMap (codewordBits 8 0)).length + 8 - 1) / 8) ∧
    flush 8 (flush 8 ⟨[], 160, 3⟩) = flush 8 ⟨[], 160, 3⟩ :=
  ⟨(C8_chunk_count_flush (W := 8) (D := 8) (k := 0) (by decide) (by decide) (by decide) [7, 8]
      (by decide) ⟨[], 160, 3⟩).1,
    (C8_chunk_count_flush (W := 8) (D := 8) (k := 0) (by decide) (by decide) (by decide) [7, 8]
      (by decide) ⟨[], 160, 3⟩).2.2.2⟩

/-- C9: the runtime-order dispatchers clamp the order to the compile-time
maximum `W - 1`: for every `k ≥ W - 1`, `encoder::push(x, k)` and
`decoder::pull(k)` behave exactly as order `W - 1`, and no out-of-range
order is rejected or reported. -/
theorem C9_order_clamp {W D u k maxOut : Nat} (hk : W - 1 ≤ k)
    (s : EncState) (t : DecState) :
    encPush W D u k s = encPush W D u (W - 1) s ∧
      decPull D W maxOut k t = decPull D W maxOut (W - 1) t := by
  have h1 : min k (W - 1) = W - 1 := by omega
  have h2 : min (W - 1) (W - 1) = W - 1 := by omega
  rw [encPush_min, encPush_min, decPull_min, decPull_min, h1, h2]
  exact ⟨rfl, rfl⟩

theorem C9_order_clamp_witness :
    encPush 8 8 9 100 (encInit 8) = encPush 8 8 9 (8 - 1) (encInit 8) ∧
      decPull 8 8 255 100 (decInit 8 [3]) =
        decPull 8 8 255 (8 - 1) (decInit 8 [3]) :=
  C9_order_clamp (by decide) (encInit 8) (decInit 8 [3])

/-- The shift amount `shift2 = output_digits - shift` that the spill branch
of the non-overruns `encoder::push` applies to `data` (golomb.h:309–317),
mirrored on the same control flow: `some shift2` exactly when the spill
branch is taken. -/
def push2Shift2 (W D k u : Nat) (s : EncState) : Option Nat :=
  let base := (1 <<< k) % 2 ^ D
  let data := (u + base) % 2 ^ D
  let data_bits_to_write := bit_width data
  let zeros := data_bits_to_write - (k + 1)
  let z :=
    if zeros ≥ s.bitsFree then
      (zeros - s.bitsFree, (⟨s.out ++ [s.buffer], 0, D⟩ : EncState))
    else (zeros, s)
  let s2 : EncState := ⟨z.2.out, z.2.buffer, z.2.bitsFree - z.1⟩
  if data_bits_to_write ≥ s2.bitsFree then
    some (D - (data_bits_to_write - s2.bitsFree))
  else none

/-- C10 (refuted): the spill-branch shift amount is not always smaller than
the chunk width.  At `W = 8`, `D = 32`, `k = 0`, after pushing
`127, 127, 0` the encoder reaches a state with one free buffer bit, and the
next push of `0` takes the spill branch with `shift2 = 32 = D` — in the
source, an undefined `data << 32` on the 32-bit chunk type. -/
theorem C10_shift2_reaches_D :
    push2Shift2 8 32 0 0
        ([127, 127, 0].foldl (fun s u => encPush 8 32 u 0 s) (encInit 32)) =
      some 32 := by decide

end Golomb
